import Mathlib

/-!
Verification of the text-editing core of the `oh-my-pi` coding agent:
the sequence matcher (`seek-sequence.ts`), the hunk parser and patch apply
engine (`apply-patch.ts`), and the hashline edit engine.

Conventions of the embedding:
* TypeScript strings are Lean `String`s; per-character work uses `String.data`.
* Floating-point confidence scores are embedded as exact rationals (`ℚ`);
  all scores appearing in the source (1.00, 0.99, 0.98, 0.97, 0.92 and
  Levenshtein means) are ratios of small integers, so the rational
  arithmetic matches the intent of the code exactly.
* Thrown exceptions become `Except` errors; error classes become inductive
  error types carrying the same payload the source attaches to the message.
-/

namespace OhMyPi

/-- Decidable equality for `Except` results (both payloads decidable). -/
instance exceptDecEq {e a : Type} [DecidableEq e] [DecidableEq a] :
    DecidableEq (Except e a)
  | .ok x, .ok y =>
    if h : x = y then .isTrue (by rw [h])
    else .isFalse (by intro hc; cases hc; exact h rfl)
  | .ok _, .error _ => .isFalse (by intro hc; cases hc)
  | .error _, .ok _ => .isFalse (by intro hc; cases hc)
  | .error x, .error y =>
    if h : x = y then .isTrue (by rw [h])
    else .isFalse (by intro hc; cases hc; exact h rfl)

/-! ## Character-list string primitives

The JavaScript string operations the source relies on (`trim`, `trimEnd`,
`split`, `replace`, `startsWith`, `slice`) are modelled on `String.data`
(the underlying character list) so that every definition evaluates inside
the kernel.  Whitespace is the ASCII set the source texts exercise. -/

/-- JavaScript whitespace, restricted to the ASCII characters. -/
def isWS (c : Char) : Bool :=
  c == ' ' || c == '\t' || c == '\n' || c == '\r'

/-- `s.trimEnd()`: strip trailing whitespace. -/
def trimEndStr (s : String) : String :=
  String.mk (s.data.reverse.dropWhile isWS).reverse

/-- `s.trim()`: strip leading and trailing whitespace. -/
def trimStr (s : String) : String :=
  String.mk ((s.data.dropWhile isWS).reverse.dropWhile isWS).reverse

/-- `s.split("\n")` accumulator: `acc` holds the current line reversed. -/
def splitLinesAux : List Char → List Char → List String
  | [], acc => [String.mk acc.reverse]
  | c :: rest, acc =>
    if c = '\n' then String.mk acc.reverse :: splitLinesAux rest []
    else splitLinesAux rest (c :: acc)

/-- `s.split("\n")`. -/
def splitLines (s : String) : List String := splitLinesAux s.data []

/-- `s.startsWith(p)`. -/
def strStartsWith (s p : String) : Bool := s.data.take p.data.length == p.data

/-- `s.slice(n)` (drop the first `n` characters). -/
def strDrop (s : String) (n : Nat) : String := String.mk (s.data.drop n)

/-! ## Sequence matcher (src/.../core/tools/edit/seek-sequence.ts) -/

/-- `normalizeUnicode` from seek-sequence.ts: trim, then map common Unicode
punctuation code points to ASCII equivalents (dashes to `-`, fancy single
quotes to `'`, fancy double quotes to `"`, exotic spaces to a plain space). -/
def normalizeUnicodeChar (c : Char) : Char :=
  let n := c.toNat
  if n = 0x2010 ∨ n = 0x2011 ∨ n = 0x2012 ∨ n = 0x2013 ∨ n = 0x2014 ∨
     n = 0x2015 ∨ n = 0x2212 then '-'
  else if n = 0x2018 ∨ n = 0x2019 ∨ n = 0x201a ∨ n = 0x201b then '\''
  else if n = 0x201c ∨ n = 0x201d ∨ n = 0x201e ∨ n = 0x201f then '"'
  else if n = 0x00a0 ∨ n = 0x2002 ∨ n = 0x2003 ∨ n = 0x2004 ∨ n = 0x2005 ∨
          n = 0x2006 ∨ n = 0x2007 ∨ n = 0x2008 ∨ n = 0x2009 ∨ n = 0x200a ∨
          n = 0x202f ∨ n = 0x205f ∨ n = 0x3000 then ' '
  else c

def normalizeUnicode (s : String) : String :=
  String.mk ((trimStr s).data.map normalizeUnicodeChar)

/-- `normalizeFuzzyText` from seek-sequence.ts: the three regex replaces
mapping fancy double quotes, fancy single quotes/backtick/acute, and
dash variants to their ASCII equivalents. -/
def normalizeFuzzyChar (c : Char) : Char :=
  let n := c.toNat
  if n = 0x201c ∨ n = 0x201d ∨ n = 0x201e ∨ n = 0x201f ∨ n = 0x00ab ∨
     n = 0x00bb then '"'
  else if n = 0x2018 ∨ n = 0x2019 ∨ n = 0x201a ∨ n = 0x201b ∨ n = 0x0060 ∨
          n = 0x00b4 then '\''
  else if n = 0x2010 ∨ n = 0x2011 ∨ n = 0x2012 ∨ n = 0x2013 ∨ n = 0x2014 ∨
          n = 0x2212 then '-'
  else c

def normalizeFuzzyText (s : String) : String :=
  String.mk (s.data.map normalizeFuzzyChar)

/-- The `/[ \t]+/g → " "` replace of `normalizeLineForFuzzy`: collapse each
run of spaces/tabs into a single space. -/
def collapseSpaceRuns : List Char → List Char
  | [] => []
  | c :: rest =>
    if c = ' ' ∨ c = '\t' then
      match collapseSpaceRuns rest with
      | ' ' :: tail => ' ' :: tail
      | tail => ' ' :: tail
    else c :: collapseSpaceRuns rest

/-- `normalizeLineForFuzzy` from seek-sequence.ts: trim, short-circuit the
empty result, normalize quotes/dashes, collapse whitespace runs. -/
def normalizeLineForFuzzy (line : String) : String :=
  let trimmed := trimStr line
  if trimmed.length = 0 then ""
  else String.mk (collapseSpaceRuns (normalizeFuzzyText trimmed).data)

/-- One inner step of the `levenshteinDistance` DP: given the cells of the
previous row (`prevRest` is `prev[j..]`, `prevDiag` is `prev[j-1]`) and the
cell just computed in the current row (`currPrev` is `curr[j-1]`), produce
the cells `curr[j..]` for the remaining characters of `b`. -/
def levNextAux (aC : Char) : List Char → List Nat → Nat → Nat → List Nat
  | [], _, _, _ => []
  | bC :: bs, prevRest, prevDiag, currPrev =>
    let pj := prevRest.headD 0
    let cost := if aC = bC then 0 else 1
    let cj := min (pj + 1) (min (currPrev + 1) (prevDiag + cost))
    cj :: levNextAux aC bs prevRest.tail pj cj

/-- One row of the `levenshteinDistance` DP (the body of the outer `for` loop):
`curr[0] = prev[0] + 1`, then the inner loop over `b`. -/
def levNext (aC : Char) (b : List Char) (prev : List Nat) : List Nat :=
  let c0 := prev.headD 0 + 1
  c0 :: levNextAux aC b prev.tail (prev.headD 0) c0

/-- `levenshteinDistance` from seek-sequence.ts, two-row dynamic programming:
early return 0 on equal strings, then row `[0..bLen]` updated once per
character of `a`; the answer is `prev[bLen]` (the last cell of the final row). -/
def levenshteinDistance (a b : String) : Nat :=
  let as := a.data
  let bs := b.data
  if as = bs then 0
  else if as.length = 0 then bs.length
  else if bs.length = 0 then as.length
  else ((as.foldl (fun prev aC => levNext aC bs prev)
    (List.range (bs.length + 1))).getLast?).getD 0

/-- `similarityScore` from seek-sequence.ts: `1 − distance / maxLen`,
with 1 for two empty strings. -/
def similarityScore (a b : String) : ℚ :=
  if a.length = 0 ∧ b.length = 0 then 1
  else
    let maxLen := max a.length b.length
    if maxLen = 0 then 1
    else 1 - (levenshteinDistance a b : ℚ) / (maxLen : ℚ)

/-- `FUZZY_THRESHOLD` from seek-sequence.ts. -/
def FUZZY_THRESHOLD : ℚ := 92 / 100

/-- `matchesAt` from seek-sequence.ts: the pattern matches `lines` starting at
`i` under the comparison `compare` (indices out of range compare a default
empty line; callers only use in-range `i`). -/
def matchesAt (lines pattern : List String) (i : Nat)
    (compare : String → String → Bool) : Bool :=
  (List.range pattern.length).all fun j =>
    compare (lines.getD (i + j) "") (pattern.getD j "")

/-- `fuzzyScoreAt` from seek-sequence.ts: average of the per-line similarity
scores of the normalized lines, for the pattern placed at `i`. -/
def fuzzyScoreAt (lines pattern : List String) (i : Nat) : ℚ :=
  ((List.range pattern.length).foldl (fun totalScore j =>
    totalScore + similarityScore (normalizeLineForFuzzy (lines.getD (i + j) ""))
      (normalizeLineForFuzzy (pattern.getD j ""))) 0) / (pattern.length : ℚ)

/-- Result type of `seekSequence` (interface `SeekSequenceResult`). -/
structure SeekSequenceResult where
  index : Option Nat
  confidence : ℚ
deriving DecidableEq, Repr

/-- The ascending list of loop indices `searchStart..maxStart` shared by the
four strict passes of `seekSequence` (empty when `searchStart > maxStart`). -/
def candIdxs (searchStart maxStart : Nat) : List Nat :=
  List.range' searchStart (maxStart + 1 - searchStart)

/-- The positions scanned by the fuzzy pass of `seekSequence`: the main range,
followed by the `start..searchStart-1` fallback range when `eof` started the
search from the end of the file. -/
def seekCandidates (lines pattern : List String) (start : Nat) (eof : Bool) :
    List Nat :=
  if pattern.length = 0 ∨ lines.length < pattern.length then []
  else
    let searchStart := if eof then lines.length - pattern.length else start
    let maxStart := lines.length - pattern.length
    candIdxs searchStart maxStart ++
      (if eof ∧ start < searchStart then List.range' start (searchStart - start)
       else [])

/-- The fuzzy pass accumulator of `seekSequence` (`bestIndex`/`bestScore`),
updated by strict improvement, so the earliest position of maximal score, in
scan order, wins. -/
def fuzzyBest (lines pattern : List String) (cands : List Nat) :
    Option Nat × ℚ :=
  cands.foldl (fun best i =>
    let score := fuzzyScoreAt lines pattern i
    if best.2 < score then (some i, score) else best) (none, 0)

/-- `seekSequence` from seek-sequence.ts: empty pattern matches at `start`;
a pattern longer than the input never matches; otherwise four decreasingly
strict equality passes over `searchStart..maxStart` (exact, trailing
whitespace stripped, fully trimmed, Unicode-normalized), then the fuzzy pass
keeping the best mean-similarity position, accepted at `FUZZY_THRESHOLD`. -/
def seekSequence (lines pattern : List String) (start : Nat) (eof : Bool) :
    SeekSequenceResult :=
  if pattern.length = 0 then ⟨some start, 1⟩
  else if lines.length < pattern.length then ⟨none, 0⟩
  else
    let searchStart := if eof then lines.length - pattern.length else start
    let maxStart := lines.length - pattern.length
    let scan := fun (compare : String → String → Bool) =>
      (candIdxs searchStart maxStart).find? fun i =>
        matchesAt lines pattern i compare
    match scan (fun a b => a == b) with
    | some i => ⟨some i, 1⟩
    | none =>
      match scan (fun a b => trimEndStr a == trimEndStr b) with
      | some i => ⟨some i, 99 / 100⟩
      | none =>
        match scan (fun a b => trimStr a == trimStr b) with
        | some i => ⟨some i, 98 / 100⟩
        | none =>
          match scan (fun a b => normalizeUnicode a == normalizeUnicode b) with
          | some i => ⟨some i, 97 / 100⟩
          | none =>
            let best := fuzzyBest lines pattern
              (seekCandidates lines pattern start eof)
            match best.1 with
            | some i =>
              if FUZZY_THRESHOLD ≤ best.2 then ⟨some i, best.2⟩
              else ⟨none, best.2⟩
            | none => ⟨none, best.2⟩

/-! ## Hunk parser and patch apply engine (apply-patch.ts) -/

/-- `ParseError` from apply-patch.ts: a message plus the optional line number
within the diff text. -/
structure ParseError where
  message : String
  lineNumber : Option Nat
deriving DecidableEq, Repr

/-- `ApplyPatchError` from apply-patch.ts, with the data each `throw` site
interpolates into its message made explicit. -/
inductive ApplyError where
  /-- "Failed to find context '<ctx>' in <path>" -/
  | contextNotFound (ctx path : String)
  /-- "Failed to find expected lines in <path>:\n<oldLines>" -/
  | linesNotFound (path : String) (oldLines : List String)
  /-- "Found <count> occurrences of the text in <path>. The text must be
  unique. ..." -/
  | multipleOccurrences (count : Nat) (path : String)
  /-- "Could not find a close enough match in <path>. ..." or
  "Failed to find expected lines in <path>: ..." from `applySimpleReplace` -/
  | noCloseMatch (path : String) (oldText : String)
deriving DecidableEq, Repr

/-- `UpdateChunk` from apply-patch.ts. -/
structure UpdateChunk where
  changeContext : Option String
  hasContextLines : Bool
  oldLines : List String
  newLines : List String
  isEndOfFile : Bool
deriving DecidableEq, Repr

/-- `EOF_MARKER` from apply-patch.ts. -/
def EOF_MARKER : String := "*** End of File"

/-- The classification loop of `parseOneChunk` (the `for` over the lines after
the optional `@@` header): each line is the end-of-file marker, an empty line
(context), or classified by its first character (`' '` context, `'+'` added,
`'-'` removed); any other first character ends the chunk — as an error when
no line was parsed yet, else as the start of the next hunk.  Returns the
completed chunk and `parsedLines`. -/
def parseChunkBody (lineNumber : Nat) :
    List String → UpdateChunk → Nat → Except ParseError (UpdateChunk × Nat)
  | [], chunk, parsed => .ok (chunk, parsed)
  | l :: rest, chunk, parsed =>
    if l = EOF_MARKER then
      if parsed = 0 then
        .error ⟨"Hunk does not contain any lines", some (lineNumber + 1)⟩
      else .ok ({ chunk with isEndOfFile := true }, parsed + 1)
    else
      match l.data with
      | [] =>
        parseChunkBody lineNumber rest
          { chunk with
            hasContextLines := true
            oldLines := chunk.oldLines ++ [""]
            newLines := chunk.newLines ++ [""] } (parsed + 1)
      | c :: cs =>
        if c = ' ' then
          parseChunkBody lineNumber rest
            { chunk with
              hasContextLines := true
              oldLines := chunk.oldLines ++ [String.mk cs]
              newLines := chunk.newLines ++ [String.mk cs] } (parsed + 1)
        else if c = '+' then
          parseChunkBody lineNumber rest
            { chunk with newLines := chunk.newLines ++ [String.mk cs] }
            (parsed + 1)
        else if c = '-' then
          parseChunkBody lineNumber rest
            { chunk with oldLines := chunk.oldLines ++ [String.mk cs] }
            (parsed + 1)
        else if parsed = 0 then
          .error ⟨"Unexpected line in hunk", some (lineNumber + 1)⟩
        else .ok (chunk, parsed)

/-- `parseOneChunk` from apply-patch.ts: recognise the `@@`/`@@ <ctx>` header
(optional only for the first chunk), require at least one following line,
run the classification loop, and reject a chunk with zero parsed lines.
Returns the chunk and the number of input lines consumed. -/
def parseOneChunk (lines : List String) (lineNumber : Nat)
    (allowMissingContext : Bool) : Except ParseError (UpdateChunk × Nat) :=
  match lines with
  | [] => .error ⟨"Diff does not contain any lines", some lineNumber⟩
  | l0 :: rest =>
    let header : Option (Option String × List String × Nat) :=
      if l0 = "@@" then some (none, rest, 1)
      else if strStartsWith l0 "@@ " then some (some (strDrop l0 3), rest, 1)
      else if allowMissingContext then some (none, l0 :: rest, 0)
      else none
    match header with
    | none =>
      .error ⟨"Expected hunk to start with @@ context marker", some lineNumber⟩
    | some (changeContext, body, startIndex) =>
      if body = [] ∧ startIndex = 1 then
        .error ⟨"Hunk does not contain any lines", some (lineNumber + 1)⟩
      else
        match parseChunkBody lineNumber body
          ⟨changeContext, false, [], [], false⟩ 0 with
        | .error e => .error e
        | .ok (chunk, parsed) =>
          if parsed = 0 then
            .error ⟨"Hunk does not contain any lines",
              some (lineNumber + startIndex)⟩
          else .ok (chunk, parsed + startIndex)

/-- The `while` loop of `parseDiffHunks`: skip blank (whitespace-only) lines
between chunks, parse one chunk, advance by the lines it consumed.  `fuel`
bounds the iteration count; every iteration consumes at least one line, so
`lines.length + 1` fuel never runs out. -/
def parseHunksGo : Nat → List String → Nat → Bool →
    Except ParseError (List UpdateChunk)
  | 0, _, _, _ => .error ⟨"Diff parser made no progress", none⟩
  | _ + 1, [], _, _ => .ok []
  | fuel + 1, l :: rest, n, isFirst =>
    if trimStr l = "" then parseHunksGo fuel rest (n + 1) isFirst
    else
      match parseOneChunk (l :: rest) n isFirst with
      | .error e => .error e
      | .ok (chunk, consumed) =>
        match parseHunksGo fuel ((l :: rest).drop consumed) (n + consumed)
          false with
        | .error e => .error e
        | .ok more => .ok (chunk :: more)

/-- `parseDiffHunks` from apply-patch.ts: split the diff text into lines and
parse chunks until the input is exhausted. -/
def parseDiffHunks (diff : String) : Except ParseError (List UpdateChunk) :=
  let lines := splitLines diff
  parseHunksGo (lines.length + 1) lines 1 true

/-- `Replacement` from apply-patch.ts. -/
structure Replacement where
  startIndex : Nat
  oldLen : Nat
  newLines : List String
deriving DecidableEq, Repr

/-- Stable insertion preserving the relative order of equal start indices,
modelling `replacements.sort((a, b) => a.startIndex - b.startIndex)`. -/
def insertByStart (r : Replacement) : List Replacement → List Replacement
  | [] => [r]
  | s :: t =>
    if s.startIndex ≤ r.startIndex then s :: insertByStart r t
    else r :: s :: t

/-- Ascending stable sort by `startIndex` (the final `sort` of
`computeReplacements`). -/
def sortByStart (l : List Replacement) : List Replacement :=
  l.foldl (fun acc r => insertByStart r acc) []

/-- The per-chunk body of the `for` loop of `computeReplacements`: handle the
optional scope context (locating it with `seekSequence` and advancing the
cursor past it, or onto it when the first old line duplicates it), then
either record a pure insertion at end-of-file (before a trailing blank line)
or locate the old lines (retrying once with a trailing blank line stripped
from old and new).  Returns the recorded replacement and the new cursor. -/
def chunkStep (originalLines : List String) (path : String) (lineIndex : Nat)
    (chunk : UpdateChunk) : Except ApplyError (Replacement × Nat) :=
  let afterContext : Except ApplyError Nat :=
    match chunk.changeContext with
    | none => .ok lineIndex
    | some ctx =>
      match (seekSequence originalLines [ctx] lineIndex false).index with
      | none => .error (.contextNotFound ctx path)
      | some idx =>
        match chunk.oldLines with
        | firstOld :: _ =>
          if trimStr firstOld = trimStr ctx then .ok idx else .ok (idx + 1)
        | [] => .ok (idx + 1)
  match afterContext with
  | .error e => .error e
  | .ok cursor =>
    if chunk.oldLines = [] then
      let insertionIdx :=
        if originalLines ≠ [] ∧ originalLines.getLast? = some "" then
          originalLines.length - 1
        else originalLines.length
      .ok (⟨insertionIdx, 0, chunk.newLines⟩, cursor)
    else
      match (seekSequence originalLines chunk.oldLines cursor
        chunk.isEndOfFile).index with
      | some found =>
        .ok (⟨found, chunk.oldLines.length, chunk.newLines⟩,
          found + chunk.oldLines.length)
      | none =>
        if chunk.oldLines.getLast? = some "" then
          let pattern := chunk.oldLines.dropLast
          let newSlice :=
            if chunk.newLines.getLast? = some "" then chunk.newLines.dropLast
            else chunk.newLines
          match (seekSequence originalLines pattern cursor
            chunk.isEndOfFile).index with
          | some found =>
            .ok (⟨found, pattern.length, newSlice⟩, found + pattern.length)
          | none => .error (.linesNotFound path chunk.oldLines)
        else .error (.linesNotFound path chunk.oldLines)

/-- The chunk loop of `computeReplacements`, threading the cursor. -/
def computeReplacementsGo (originalLines : List String) (path : String) :
    List UpdateChunk → Nat → Except ApplyError (List Replacement)
  | [], _ => .ok []
  | chunk :: chunks, lineIndex =>
    match chunkStep originalLines path lineIndex chunk with
    | .error e => .error e
    | .ok (r, cursor) =>
      match computeReplacementsGo originalLines path chunks cursor with
      | .error e => .error e
      | .ok rs => .ok (r :: rs)

/-- `computeReplacements` from apply-patch.ts: resolve every chunk to a
`Replacement`, then sort by start index. -/
def computeReplacements (originalLines : List String) (path : String)
    (chunks : List UpdateChunk) : Except ApplyError (List Replacement) :=
  match computeReplacementsGo originalLines path chunks 0 with
  | .error e => .error e
  | .ok rs => .ok (sortByStart rs)

/-- One `splice` pair of `applyReplacements`: delete `oldLen` lines at
`startIndex` and insert the new lines there. -/
def spliceAt (lines : List String) (r : Replacement) : List String :=
  lines.take r.startIndex ++ r.newLines ++ lines.drop (r.startIndex + r.oldLen)

/-- `applyReplacements` from apply-patch.ts: splice in reverse order so that
earlier splices never shift later indices. -/
def applyReplacements (lines : List String) (replacements : List Replacement) :
    List String :=
  replacements.foldr (fun r acc => spliceAt acc r) lines

/-- `join("\n")` on a list of lines (used for `oldLines.join`, `newLines.join`
and the final `newLines.join("\n")` of `applyDiffToContent`). -/
def joinLines : List String → String
  | [] => ""
  | [l] => l
  | l :: ls => l ++ "\n" ++ joinLines ls

/-- `s.endsWith("\n")`. -/
def endsWithNewline (s : String) : Bool := s.data.getLast? = some '\n'

/-- CRLF pairs replaced by LF, on character lists. -/
def crlfToLf : List Char → List Char
  | [] => []
  | '\r' :: '\n' :: rest => '\n' :: crlfToLf rest
  | c :: rest => c :: crlfToLf rest

/-- Modelled from the spec: `normalizeToLF` (patch/normalize.ts, not included
in the sources) converts Windows line endings to LF so that matching works on
LF-normalized text; modelled as replacing every CRLF pair by LF. -/
def normalizeToLF (s : String) : String := String.mk (crlfToLf s.data)

/-- Count of non-overlapping verbatim occurrences of `pat` in `text`
(scanning left to right and skipping the length of each match); `skip`
is the number of positions still covered by the previous match. -/
def countOccAux (pat : List Char) : List Char → Nat → Nat
  | [], _ => 0
  | _ :: rest, skip + 1 => countOccAux pat rest skip
  | c :: rest, 0 =>
    if (c :: rest).take pat.length = pat then
      1 + countOccAux pat rest (pat.length - 1)
    else countOccAux pat rest 0

/-- Number of verbatim occurrences of `pat` in `text` (non-overlapping,
split-style counting); 0 for the empty pattern. -/
def countOcc (text pat : List Char) : Nat :=
  if pat.length = 0 then 0 else countOccAux pat text 0

/-- Index of the first verbatim occurrence of `pat` in `text`, if any. -/
def firstIndexOfAux (pat : List Char) : List Char → Nat → Option Nat
  | [], _ => none
  | c :: rest, i =>
    if (c :: rest).take pat.length = pat then some i
    else firstIndexOfAux pat rest (i + 1)

def firstIndexOf (text pat : List Char) : Option Nat :=
  firstIndexOfAux pat text 0

/-- `EditMatch` (`FuzzyMatch`) from patch/types.ts: where the old text was
found and the text actually there. -/
structure EditMatch where
  startIndex : Nat
  actualText : String
deriving DecidableEq, Repr

/-- `MatchOutcome` from patch/types.ts, restricted to the fields
`applySimpleReplace` consumes. -/
structure MatchOutcome where
  matched : Option EditMatch
  occurrences : Option Nat
deriving DecidableEq, Repr

/-- Modelled from the spec: `findEditMatch` (`findMatch` in patch/fuzzy.ts,
not included in the sources) finds the old text in the content by exact
verbatim occurrence counting — a unique occurrence is the match, several
occurrences are reported through `occurrences` so the caller can fail loudly
rather than guess.  The spec does not define the character-level fuzzy
fallback algorithmically, so the model reports no match when the text does
not occur verbatim. -/
def findEditMatch (content oldText : String) : MatchOutcome :=
  let n := countOcc content.data oldText.data
  if n = 1 then
    { matched := some ⟨(firstIndexOf content.data oldText.data).getD 0, oldText⟩
      occurrences := some 1 }
  else if 1 < n then { matched := none, occurrences := some n }
  else { matched := none, occurrences := none }

/-- Modelled from the spec: `adjustNewTextIndentation` (patch/normalize.ts,
not included in the sources) re-indents the new text when a fuzzy match found
the old text at a different indentation; when the matched text equals the
expected text — the only case the modelled `findEditMatch` produces — no
adjustment is needed, so the model returns the new text unchanged. -/
def adjustNewTextIndentation (_oldText _actualText newText : String) : String :=
  newText

/-- `applySimpleReplace` from apply-patch.ts: join the old/new lines into
whole texts, LF-normalize, find the old text with the character-level
matcher, fail loudly on several verbatim occurrences, fail when nothing
matches, otherwise splice the adjusted new text in and ensure the result
ends with a newline. -/
def applySimpleReplace (originalContent path : String) (chunk : UpdateChunk) :
    Except ApplyError String :=
  let oldText := joinLines chunk.oldLines
  let newText := joinLines chunk.newLines
  let normalizedContent := normalizeToLF originalContent
  let normalizedOldText := normalizeToLF oldText
  let outcome := findEditMatch normalizedContent normalizedOldText
  if 1 < outcome.occurrences.getD 0 then
    .error (.multipleOccurrences (outcome.occurrences.getD 0) path)
  else
    match outcome.matched with
    | none => .error (.noCloseMatch path oldText)
    | some m =>
      let adjusted :=
        adjustNewTextIndentation normalizedOldText m.actualText newText
      let result :=
        String.mk (normalizedContent.data.take m.startIndex) ++ adjusted ++
          String.mk (normalizedContent.data.drop
            (m.startIndex + m.actualText.length))
      .ok (if endsWithNewline result then result else result ++ "\n")

/-- The hunk-application path of `applyDiffToContent`: split into lines, drop
the trailing empty element produced by a final newline, resolve and splice
the replacements, ensure the line array ends with an empty line, and join. -/
def applyHunks (originalContent path : String) (chunks : List UpdateChunk) :
    Except ApplyError String :=
  let ls0 := splitLines originalContent
  let originalLines :=
    if ls0 ≠ [] ∧ ls0.getLast? = some "" then ls0.dropLast else ls0
  match computeReplacements originalLines path chunks with
  | .error e => .error e
  | .ok replacements =>
    let newLines := applyReplacements originalLines replacements
    let finalLines :=
      if newLines = [] ∨ newLines.getLast? ≠ some "" then newLines ++ [""]
      else newLines
    .ok (joinLines finalLines)

/-- `applyDiffToContent` from apply-patch.ts: a single chunk with no `@@`
context, no context lines and some old lines is the simple whole-text
replace; everything else goes through the hunk path. -/
def applyDiffToContent (originalContent path : String)
    (chunks : List UpdateChunk) : Except ApplyError String :=
  match chunks with
  | [chunk] =>
    if chunk.changeContext = none ∧ chunk.hasContextLines = false ∧
        chunk.oldLines ≠ [] then
      applySimpleReplace originalContent path chunk
    else applyHunks originalContent path [chunk]
  | _ => applyHunks originalContent path chunks

/-! ## Hashline edit engine (patch/hashline.ts)

The hashline implementation itself is not among the sources (only its test
suite and a design document quoting the `HashlineMismatchError` constructor
are), so the engine below is modelled from the spec, §3–§4.4, with the
constructor of `HashlineMismatchError` following the quoted source. -/

/-- `LineTag` from patch/hashline.ts: a 1-indexed line number and the
six-hex-character content hash, represented as its numeric value
(`hash < 16^6`). -/
structure LineTag where
  line : Nat
  hash : Nat
deriving DecidableEq, Repr

/-- `HashMismatch`: a referenced line whose stored hash no longer matches. -/
structure HashMismatch where
  line : Nat
  expected : Nat
deriving DecidableEq, Repr

/-- `HashMismatchRange`: inclusive 1-indexed line range (`stop` embeds the
source field `end`, which is a reserved word in Lean). -/
structure HashMismatchRange where
  start : Nat
  stop : Nat
deriving DecidableEq, Repr

/-- Modelled from the spec: `computeLineHash` (patch/hashline.ts, not included
in the sources) is a deterministic pure function of the line number and the
line content onto six hex characters, i.e. a value below `16^6`; different
content at the same line, and the same content at a different line, are meant
to hash differently in all realistic cases. -/
def computeLineHash (line : Nat) (content : String) : Nat :=
  content.data.foldl (fun h c => (h * 131 + c.toNat + 1) % 16777216)
    (line % 16777216)

/-- Insertion step of the ascending insertion sort over line numbers. -/
def insertNat (n : Nat) : List Nat → List Nat
  | [] => [n]
  | m :: t => if n ≤ m then n :: m :: t else m :: insertNat n t

/-- Ascending sort of line numbers. -/
def sortNats (l : List Nat) : List Nat := l.foldr insertNat []

/-- Remove duplicates from an ascending list (equal neighbours). -/
def dedupSorted : List Nat → List Nat
  | [] => []
  | [a] => [a]
  | a :: b :: t =>
    if a = b then dedupSorted (b :: t) else a :: dedupSorted (b :: t)

/-- Group an ascending duplicate-free list of line numbers into maximal
runs of consecutive integers. -/
def compactSorted : List Nat → List HashMismatchRange
  | [] => []
  | n :: rest =>
    match compactSorted rest with
    | [] => [⟨n, n⟩]
    | r :: rs =>
      if n + 1 = r.start then ⟨n, r.stop⟩ :: rs else ⟨n, n⟩ :: r :: rs

/-- Modelled from the spec: `compactLineRanges` (patch/hashline.ts, not
included in the sources) compacts mismatched line numbers into maximal
contiguous inclusive ranges — adjacent integers merge, a gap of one or more
starts a new range. -/
def compactLineRanges (ls : List Nat) : List HashMismatchRange :=
  compactSorted (dedupSorted (sortNats ls))

/-- The data `HashlineMismatchError` carries (quoted in the design document):
the collected mismatches, the stale-tag → live-tag remap built from the
current file lines, and the compacted affected ranges. -/
structure HashlineMismatchData where
  mismatches : List HashMismatch
  affectedRanges : List HashMismatchRange
  remaps : List (LineTag × LineTag)
deriving DecidableEq, Repr

/-- The `HashlineMismatchError` constructor, following the source quoted in
the design document: remap every mismatch `{line}#{expected}` to
`{line}#{computeLineHash(line, fileLines[line-1])}` and compact the
mismatched line numbers into `affectedRanges`. -/
def mkHashlineMismatchError (mismatches : List HashMismatch)
    (fileLines : List String) : HashlineMismatchData :=
  { mismatches := mismatches
    affectedRanges := compactLineRanges (mismatches.map (·.line))
    remaps := mismatches.map fun m =>
      (⟨m.line, m.expected⟩,
       ⟨m.line, computeLineHash m.line (fileLines.getD (m.line - 1) "")⟩) }

/-- `HashlineEdit` from patch/hashline.ts: the tagged union of edit
operations, each anchored by a tag, a `(first, last)` range, or an
`(after, before)` pair, with replacement content lines. -/
inductive HashlineEdit where
  | replaceTag (tag : LineTag) (content : List String)
  | replaceRange (first last : LineTag) (content : List String)
  | append (after : Option LineTag) (content : List String)
  | prepend (before : Option LineTag) (content : List String)
  | insertBetween (after before : LineTag) (content : List String)
deriving DecidableEq, Repr

/-- The tags an edit references, in declaration order. -/
def editTags : HashlineEdit → List LineTag
  | .replaceTag t _ => [t]
  | .replaceRange f l _ => [f, l]
  | .append a _ => a.toList
  | .prepend b _ => b.toList
  | .insertBetween a b _ => [a, b]

/-- The content lines an edit carries. -/
def editContent : HashlineEdit → List String
  | .replaceTag _ c => c
  | .replaceRange _ _ c => c
  | .append _ c => c
  | .prepend _ c => c
  | .insertBetween _ _ c => c

/-- Whether the edit is an insert operation (for which empty content is a
user error; deletion must use `replace` with empty content). -/
def isInsertOp : HashlineEdit → Bool
  | .replaceTag _ _ => false
  | .replaceRange _ _ _ => false
  | _ => true

/-- The referenced line number is within `[1, lineCount]`. -/
def tagInRange (fileLines : List String) (t : LineTag) : Bool :=
  decide (1 ≤ t.line ∧ t.line ≤ fileLines.length)

/-- The stored hash still matches the live line the tag names. -/
def tagMatches (fileLines : List String) (t : LineTag) : Bool :=
  t.hash == computeLineHash t.line (fileLines.getD (t.line - 1) "")

/-- First-occurrence deduplication of referenced tags (`seen` accumulates the
tags already kept). -/
def dedupTagsAux (seen : List LineTag) : List LineTag → List LineTag
  | [] => []
  | t :: ts =>
    if t ∈ seen then dedupTagsAux seen ts
    else t :: dedupTagsAux (t :: seen) ts

def dedupTags (ts : List LineTag) : List LineTag := dedupTagsAux [] ts

/-- Structural validity of one edit: range pairs must be ordered
(`first ≤ last`, `after < before`) and inserts must carry content. -/
def editWellFormed : HashlineEdit → Bool
  | .replaceTag _ _ => true
  | .replaceRange f l _ => decide (f.line ≤ l.line)
  | .append _ c => decide (c ≠ [])
  | .prepend _ c => decide (c ≠ [])
  | .insertBetween a b c => decide (a.line < b.line) && decide (c ≠ [])

/-- Resolve an edit to a splice against the original 0-indexed line array:
replaces cover the tagged lines, `append` inserts after its anchor (or at
end-of-file), `prepend` inserts before its anchor (or at the start),
`insertBetween` inserts just before the `before` anchor. -/
def resolveEdit (fileLines : List String) : HashlineEdit → Replacement
  | .replaceTag t c => ⟨t.line - 1, 1, c⟩
  | .replaceRange f l c => ⟨f.line - 1, l.line - f.line + 1, c⟩
  | .append (some t) c => ⟨t.line, 0, c⟩
  | .append none c => ⟨fileLines.length, 0, c⟩
  | .prepend (some t) c => ⟨t.line - 1, 0, c⟩
  | .prepend none c => ⟨0, 0, c⟩
  | .insertBetween _ b c => ⟨b.line - 1, 0, c⟩

/-- First 1-indexed line where the two line arrays differ, if any. -/
def firstDiffLineAux : List String → List String → Nat → Option Nat
  | [], [], _ => none
  | _ :: _, [], i => some i
  | [], _ :: _, i => some i
  | a :: as, b :: bs, i =>
    if a = b then firstDiffLineAux as bs (i + 1) else some i

/-- The error taxonomy of the hashline engine (spec §7): the aggregated
mismatch failure, the out-of-range failure, and user errors (inverted
ranges, empty insert content). -/
inductive HashlineError where
  | mismatchFailure (data : HashlineMismatchData)
  | rangeFailure (line : Nat)
  | userFailure (msg : String)
deriving DecidableEq, Repr

/-- Result of a successful hashline batch. -/
structure HashlineApplyResult where
  content : String
  firstChangedLine : Option Nat
deriving DecidableEq, Repr

/-- The distinct referenced tags whose stored hash no longer matches the
live line (first occurrence kept, spec §4.4 step 2). -/
def failingTags (fileLines : List String) (refs : List LineTag) :
    List LineTag :=
  dedupTags (refs.filter fun t => ¬ tagMatches fileLines t)

/-- Modelled from the spec: `applyHashlineEdits` (patch/hashline.ts, not
included in the sources).  Split the content into lines; validate every
referenced tag (line in range, hash matching), collecting every hash
mismatch across the whole batch without stopping at the first; abort with
the aggregated `HashlineMismatchError` data and zero mutation when any
mismatch exists; then reject structurally invalid edits; finally resolve
every edit against the original numbering and apply all splices in
descending start order. -/
def applyHashlineEdits (content : String) (edits : List HashlineEdit) :
    Except HashlineError HashlineApplyResult :=
  let fileLines := splitLines content
  let refs := edits.flatMap editTags
  match refs.find? (fun t => ¬ tagInRange fileLines t) with
  | some t => .error (.rangeFailure t.line)
  | none =>
    let failing := failingTags fileLines refs
    if failing = [] then
      if edits.all editWellFormed then
        let newLines := applyReplacements fileLines
          (sortByStart (edits.map (resolveEdit fileLines)))
        .ok ⟨joinLines newLines, firstDiffLineAux fileLines newLines 1⟩
      else .error (.userFailure "invalid edit")
    else
      .error (.mismatchFailure (mkHashlineMismatchError
        (failing.map fun t => ⟨t.line, t.hash⟩) fileLines))

/-! ## Spec-side formulation of the sequence matcher cascade (spec §4.2)

A second definition of the matcher, written from the spec's words rather
than from the loops of seek-sequence.ts, to be compared with `seekSequence`:
the five strategies are an explicit ordered table, per-position matching is
stated on the block of lines at that position, and the fuzzy pass takes the
maximum of the mean per-line similarities and the first position attaining
it. -/

/-- The block of `pattern.length` lines at position `i` equals the pattern
line-for-line under the comparison `cmp` (spec-side formulation). -/
def specBlockMatches (lines pattern : List String) (i : Nat)
    (cmp : String → String → Bool) : Bool :=
  (((lines.drop i).take pattern.length).zip pattern).all fun p => cmp p.1 p.2

/-- The ordered strategy table of spec §4.2: exact equality (1.00), equality
ignoring trailing whitespace (0.99), equality ignoring leading and trailing
whitespace (0.98), equality after Unicode punctuation normalization (0.97). -/
def specStrategies : List ((String → String → Bool) × ℚ) :=
  [(fun a b => a == b, 1),
   (fun a b => trimEndStr a == trimEndStr b, 99 / 100),
   (fun a b => trimStr a == trimStr b, 98 / 100),
   (fun a b => normalizeUnicode a == normalizeUnicode b, 97 / 100)]

/-- Mean per-line similarity of the block at position `i` (spec §4.2 step 5),
stated as a sum over the zipped block. -/
def specMeanSim (lines pattern : List String) (i : Nat) : ℚ :=
  ((((lines.drop i).take pattern.length).zip pattern).map fun p =>
    similarityScore (normalizeLineForFuzzy p.1)
      (normalizeLineForFuzzy p.2)).sum / (pattern.length : ℚ)

/-- The best fuzzy score over the candidate positions (0 when there are no
candidates). -/
def specMaxScore (lines pattern : List String) (cands : List Nat) : ℚ :=
  (cands.map (specMeanSim lines pattern)).foldr max 0

/-- Spec §4.2 as written: an empty pattern matches at `start`; a pattern
longer than the haystack never matches; otherwise the first succeeding
strategy of the ordered table wins with its confidence, and the fuzzy pass
accepts the first position attaining the best mean similarity when that
best reaches 0.92. -/
def specSeekSequence (lines pattern : List String) (start : Nat) :
    SeekSequenceResult :=
  if pattern.length = 0 then ⟨some start, 1⟩
  else if lines.length < pattern.length then ⟨none, 0⟩
  else
    let cands := candIdxs start (lines.length - pattern.length)
    match specStrategies.findSome? (fun s =>
      (cands.find? fun i => specBlockMatches lines pattern i s.1).map
        fun i => SeekSequenceResult.mk (some i) s.2) with
    | some r => r
    | none =>
      let best := specMaxScore lines pattern cands
      if FUZZY_THRESHOLD ≤ best then
        ⟨cands.find? fun i => specMeanSim lines pattern i = best, best⟩
      else ⟨none, best⟩

/-- The fold of the fuzzy pass, abstracted over the score function. -/
def seekFold (f : Nat → ℚ) (l : List Nat) (acc : Option Nat × ℚ) :
    Option Nat × ℚ :=
  l.foldl (fun best i => if best.2 < f i then (some i, f i) else best) acc

/-- `n` is covered by one of the inclusive ranges. -/
def inRanges (rs : List HashMismatchRange) (n : Nat) : Bool :=
  rs.any fun r => decide (r.start ≤ n ∧ n ≤ r.stop)

/-! ## Helper lemmas: folded maxima -/

theorem le_foldrMax (l : List ℚ) (c : ℚ) : c ≤ l.foldr max c := by
  induction l with
  | nil => exact le_refl c
  | cons x t ih => exact le_trans ih (le_max_right x _)

theorem mem_le_foldrMax (l : List ℚ) (c x : ℚ) (hx : x ∈ l) :
    x ≤ l.foldr max c := by
  induction l with
  | nil => cases hx
  | cons y t ih =>
    rcases List.mem_cons.mp hx with h | h
    · subst h; exact le_max_left x _
    · exact le_trans (ih h) (le_max_right y _)

theorem foldrMax_max (l : List ℚ) (a b : ℚ) :
    l.foldr max (max a b) = max a (l.foldr max b) := by
  induction l with
  | nil => rfl
  | cons x t ih => simp only [List.foldr_cons, ih, max_left_comm]

theorem foldrMax_attain (l : List ℚ) (c : ℚ) :
    l.foldr max c = c ∨ l.foldr max c ∈ l := by
  induction l with
  | nil => exact Or.inl rfl
  | cons x t ih =>
    simp only [List.foldr_cons]
    rcases le_total x (t.foldr max c) with h | h
    · rw [max_eq_right h]
      rcases ih with h2 | h2
      · exact Or.inl h2
      · exact Or.inr (List.mem_cons_of_mem x h2)
    · rw [max_eq_left h]
      exact Or.inr (List.mem_cons_self x t)

theorem foldrMax_le (l : List ℚ) (c u : ℚ) (hc : c ≤ u)
    (hl : ∀ x ∈ l, x ≤ u) : l.foldr max c ≤ u := by
  induction l with
  | nil => exact hc
  | cons x t ih =>
    simp only [List.foldr_cons]
    exact max_le (hl x (List.mem_cons_self x t))
      (ih fun y hy => hl y (List.mem_cons_of_mem x hy))

theorem matchesAt_nil (lines : List String) (i : Nat)
    (cmp : String → String → Bool) : matchesAt lines [] i cmp = true := rfl

theorem matchesAt_cons (lines : List String) (p : String) (ps : List String)
    (i : Nat) (cmp : String → String → Bool) :
    matchesAt lines (p :: ps) i cmp =
      (cmp (lines.getD i "") p && matchesAt lines ps (i + 1) cmp) := by
  simp only [matchesAt, List.length_cons, List.range_succ_eq_map,
    List.all_cons, List.all_map]
  congr 1
  have hfun : ((fun j => cmp (lines.getD (i + j) "") ((p :: ps).getD j "")) ∘
      Nat.succ) = fun j => cmp (lines.getD (i + 1 + j) "") (ps.getD j "") := by
    funext j
    simp only [Function.comp_apply, List.getD_eq_getElem?_getD,
      List.getElem?_cons_succ]
    have hj : i + (j + 1) = i + 1 + j := by omega
    rw [hj]
  rw [hfun]

theorem specBlockMatches_eq (lines pattern : List String) (i : Nat)
    (cmp : String → String → Bool) (h : i + pattern.length ≤ lines.length) :
    specBlockMatches lines pattern i cmp = matchesAt lines pattern i cmp := by
  induction pattern generalizing i with
  | nil => rfl
  | cons p ps ih =>
    have hi : i < lines.length := by
      simp only [List.length_cons] at h; omega
    have hdrop : lines.drop i = lines.getD i "" :: lines.drop (i + 1) := by
      rw [List.getD_eq_getElem lines "" hi]
      exact List.drop_eq_getElem_cons hi
    have h' : i + 1 + ps.length ≤ lines.length := by
      simp only [List.length_cons] at h; omega
    rw [matchesAt_cons, ← ih (i + 1) h']
    simp only [specBlockMatches, hdrop, List.length_cons, List.take_succ_cons,
      List.zip_cons_cons, List.all_cons]

theorem foldl_add_eq_sum (g : Nat → ℚ) (l : List Nat) (init : ℚ) :
    l.foldl (fun acc j => acc + g j) init = init + (l.map g).sum := by
  induction l generalizing init with
  | nil => simp
  | cons x t ih => simp [ih, add_assoc]

theorem fuzzyScoreAt_eq_specMeanSim (lines pattern : List String) (i : Nat)
    (h : i + pattern.length ≤ lines.length) :
    fuzzyScoreAt lines pattern i = specMeanSim lines pattern i := by
  have key : ∀ (ps : List String) (k : Nat), k + ps.length ≤ lines.length →
      ((List.range ps.length).map fun j =>
        similarityScore (normalizeLineForFuzzy (lines.getD (k + j) ""))
          (normalizeLineForFuzzy (ps.getD j ""))).sum =
      ((((lines.drop k).take ps.length).zip ps).map fun p =>
        similarityScore (normalizeLineForFuzzy p.1)
          (normalizeLineForFuzzy p.2)).sum := by
    intro ps
    induction ps with
    | nil => intro k _; rfl
    | cons p pt ih =>
      intro k hk
      have hi : k < lines.length := by
        simp only [List.length_cons] at hk; omega
      have hdrop : lines.drop k = lines.getD k "" :: lines.drop (k + 1) := by
        rw [List.getD_eq_getElem lines "" hi]
        exact List.drop_eq_getElem_cons hi
      have h' : k + 1 + pt.length ≤ lines.length := by
        simp only [List.length_cons] at hk; omega
      have hfun : ((fun j =>
          similarityScore (normalizeLineForFuzzy (lines.getD (k + j) ""))
            (normalizeLineForFuzzy ((p :: pt).getD j ""))) ∘ Nat.succ) =
          fun j =>
            similarityScore (normalizeLineForFuzzy (lines.getD (k + 1 + j) ""))
              (normalizeLineForFuzzy (pt.getD j "")) := by
        funext j
        simp only [Function.comp_apply, List.getD_eq_getElem?_getD,
          List.getElem?_cons_succ]
        have hj : k + (j + 1) = k + 1 + j := by omega
        rw [hj]
      rw [List.length_cons, List.range_succ_eq_map, List.map_cons,
        List.map_map, hfun, List.sum_cons, ih (k + 1) h', hdrop]
      simp only [List.length_cons, List.take_succ_cons, List.zip_cons_cons,
        List.map_cons, List.sum_cons]
      simp
  unfold fuzzyScoreAt specMeanSim
  rw [foldl_add_eq_sum, zero_add, key pattern i h]


/-! ## Helper lemmas: the fuzzy-pass fold -/

theorem fuzzyBest_eq_seekFold (lines pattern : List String) (cands : List Nat) :
    fuzzyBest lines pattern cands =
      seekFold (fuzzyScoreAt lines pattern) cands (none, 0) := rfl

theorem seekFold_snd (f : Nat → ℚ) (l : List Nat) (acc : Option Nat × ℚ) :
    (seekFold f l acc).2 = (l.map f).foldr max acc.2 := by
  induction l generalizing acc with
  | nil => rfl
  | cons x t ih =>
    have hacc : (if acc.2 < f x then ((some x : Option Nat), f x) else acc).2 =
        max acc.2 (f x) := by
      split
    
      · next hlt => exact (max_eq_right (le_of_lt hlt)).symm
      · next hge => exact (max_eq_left (le_of_not_lt hge)).symm
    show (seekFold f t _).2 = _
    rw [ih, hacc, List.map_cons, List.foldr_cons, max_comm acc.2 (f x),
      foldrMax_max]

theorem seekFold_isSome (f : Nat → ℚ) (l : List Nat) (acc : Option Nat × ℚ)
    (h : acc.1.isSome) : (seekFold f l acc).1.isSome := by
  induction l generalizing acc with
  | nil => exact h
  | cons x t ih =>
    have hstep : seekFold f (x :: t) acc =
        seekFold f t (if acc.2 < f x then (some x, f x) else acc) := rfl
    rw [hstep]
    by_cases hlt : acc.2 < f x
    · rw [if_pos hlt]; exact ih _ rfl
    · rw [if_neg hlt]; exact ih _ h

theorem seekFold_none (f : Nat → ℚ) (l : List Nat) (acc : Option Nat × ℚ)
    (h : (seekFold f l acc).1 = none) : seekFold f l acc = acc := by
  induction l generalizing acc with
  | nil => rfl
  | cons x t ih =>
    have hstep : seekFold f (x :: t) acc =
        seekFold f t (if acc.2 < f x then (some x, f x) else acc) := rfl
    rw [hstep] at h ⊢
    by_cases hlt : acc.2 < f x
    · rw [if_pos hlt] at h
      have : (seekFold f t ((some x : Option Nat), f x)).1.isSome :=
        seekFold_isSome f t _ rfl
      rw [h] at this
      cases this
    · rw [if_neg hlt] at h ⊢
      exact ih _ h

theorem seekFold_mem (f : Nat → ℚ) (l : List Nat) (acc : Option Nat × ℚ)
    (i : Nat) (h : (seekFold f l acc).1 = some i) : i ∈ l ∨ acc.1 = some i := by
  induction l generalizing acc with
  | nil => exact Or.inr h
  | cons x t ih =>
    have hstep : seekFold f (x :: t) acc =
        seekFold f t (if acc.2 < f x then (some x, f x) else acc) := rfl
    rw [hstep] at h
    by_cases hlt : acc.2 < f x
    · rw [if_pos hlt] at h
      rcases ih _ h with hm | heq
      · exact Or.inl (List.mem_cons_of_mem x hm)
      · exact Or.inl (by simp at heq; exact heq ▸ List.mem_cons_self x t)
    · rw [if_neg hlt] at h
      rcases ih _ h with hm | heq
      · exact Or.inl (List.mem_cons_of_mem x hm)
      · exact Or.inr heq

theorem seekFold_stall (f : Nat → ℚ) (l : List Nat) (acc : Option Nat × ℚ)
    (h : ∀ y ∈ l, f y ≤ acc.2) : seekFold f l acc = acc := by
  induction l with
  | nil => rfl
  | cons x t ih =>
    have hstep : seekFold f (x :: t) acc =
        seekFold f t (if acc.2 < f x then (some x, f x) else acc) := rfl
    rw [hstep, if_neg (not_lt.mpr (h x (List.mem_cons_self x t)))]
    exact ih fun y hy => h y (List.mem_cons_of_mem x hy)

theorem seekFold_find (f : Nat → ℚ) (l : List Nat) (acc : Option Nat × ℚ)
    (h : acc.2 < (l.map f).foldr max acc.2) :
    (seekFold f l acc).1 =
      l.find? fun i => decide (f i = (l.map f).foldr max acc.2) := by
  induction l generalizing acc with
  | nil => exact absurd h (lt_irrefl _)
  | cons x t ih =>
    have hstep : seekFold f (x :: t) acc =
        seekFold f t (if acc.2 < f x then (some x, f x) else acc) := rfl
    have hM : ((x :: t).map f).foldr max acc.2 =
        max (f x) ((t.map f).foldr max acc.2) := by
      rw [List.map_cons, List.foldr_cons]
    by_cases hx : f x = ((x :: t).map f).foldr max acc.2
    · have hfind : (x :: t).find?
          (fun i => decide (f i = ((x :: t).map f).foldr max acc.2)) = some x := by
        rw [List.find?_cons_of_pos]
        simpa using hx
      rw [hfind, hstep]
      have hlt : acc.2 < f x := hx ▸ h
      rw [if_pos hlt]
      have hstall : ∀ y ∈ t, f y ≤ f x := by
        intro y hy
        have h1 : f y ≤ (t.map f).foldr max acc.2 :=
          mem_le_foldrMax _ _ _ (List.mem_map_of_mem f hy)
        have h2 : (t.map f).foldr max acc.2 ≤ f x := by
          rw [hx, hM]; exact le_max_right _ _
        exact le_trans h1 h2
      rw [seekFold_stall f t _ hstall]
    · have hMt : ((x :: t).map f).foldr max acc.2 =
          (t.map f).foldr max acc.2 := by
        rcases max_cases (f x) ((t.map f).foldr max acc.2) with ⟨he, _⟩ | ⟨he, _⟩
        · exact absurd (hM.trans he).symm hx
        · exact hM.trans he
      have hfind : (x :: t).find?
          (fun i => decide (f i = ((x :: t).map f).foldr max acc.2)) =
          t.find? (fun i => decide (f i = ((x :: t).map f).foldr max acc.2)) := by
        rw [List.find?_cons_of_neg]
        simpa using hx
      have hxlt : f x < ((x :: t).map f).foldr max acc.2 :=
        lt_of_le_of_ne (hM ▸ le_max_left _ _) hx
      rw [hfind, hstep]
      by_cases hlt : acc.2 < f x
      · rw [if_pos hlt]
        have hMt' : (t.map f).foldr max (f x) = (t.map f).foldr max acc.2 := by
          have : max (f x) acc.2 = f x := max_eq_left (le_of_lt hlt)
          calc (t.map f).foldr max (f x) = (t.map f).foldr max (max (f x) acc.2) := by
                rw [this]
            _ = max (f x) ((t.map f).foldr max acc.2) := foldrMax_max _ _ _
            _ = (t.map f).foldr max acc.2 := by
                rw [hMt] at hxlt
                exact max_eq_right (le_of_lt hxlt)
        have harg : (f x : ℚ) < (t.map f).foldr max (f x) := by
          rw [hMt']
          rw [← hMt]
          exact hxlt
        have := ih ((some x : Option Nat), f x) harg
        rw [show (((some x : Option Nat), f x) : Option Nat × ℚ).2 = f x from rfl]
          at this
        rw [this, hMt', hMt]
      · rw [if_neg hlt]
        have harg : acc.2 < (t.map f).foldr max acc.2 := hMt ▸ h
        rw [ih acc harg, hMt]


/-! ## Helper lemmas: candidate ranges and predicate congruence -/

theorem findPred_congr {α : Type} (l : List α) (p q : α → Bool)
    (h : ∀ x ∈ l, p x = q x) : l.find? p = l.find? q := by
  induction l with
  | nil => rfl
  | cons x t ih =>
    rw [List.find?_cons, List.find?_cons, h x (List.mem_cons_self x t)]
    cases q x
    · exact ih fun y hy => h y (List.mem_cons_of_mem x hy)
    · rfl

theorem mem_candIdxs {i s m : Nat} (h : i ∈ candIdxs s m) : s ≤ i ∧ i ≤ m := by
  simp only [candIdxs, List.mem_range'_1] at h
  omega

/-- Claim C2 preparation: with `preferEnd` off the fuzzy pass scans exactly
the strict-pass range. -/
theorem seekCandidates_false (lines pattern : List String) (start : Nat)
    (hp : ¬ pattern.length = 0) (hl : ¬ lines.length < pattern.length) :
    seekCandidates lines pattern start false =
      candIdxs start (lines.length - pattern.length) := by
  simp [seekCandidates, hp, hl]

/-- Claim C2: for every haystack of lines, every non-empty pattern no longer
than the haystack, and every start index, `seekSequence` (with `preferEnd`
off) returns the result of the first succeeding strategy in the spec's fixed
order — exact equality at 1.00, trailing-whitespace-insensitive equality at
0.99, fully trimmed equality at 0.98, Unicode-punctuation-normalized equality
at 0.97, and finally the fuzzy pass scoring every candidate position by the
mean per-line similarity and accepting the best-scoring position only at
0.92 or above; if no strategy qualifies, no index is returned.  Stated as
equality with `specSeekSequence`, the cascade written from the spec. -/
theorem c2_seek_cascade (lines pattern : List String)
    (start : Nat) (h1 : pattern ≠ []) (h2 : pattern.length ≤ lines.length) :
    seekSequence lines pattern start false = specSeekSequence lines pattern start := by
  have hp0 : ¬ pattern.length = 0 := fun h => h1 (List.length_eq_zero.mp h)
  have hlt : ¬ lines.length < pattern.length := not_lt.mpr h2
  have hin : ∀ i ∈ candIdxs start (lines.length - pattern.length),
      i + pattern.length ≤ lines.length := by
    intro i hi
    have := mem_candIdxs hi
    omega
  have hcongr : ∀ cmp : String → String → Bool,
      (candIdxs start (lines.length - pattern.length)).find?
        (fun i => specBlockMatches lines pattern i cmp) =
      (candIdxs start (lines.length - pattern.length)).find?
        (fun i => matchesAt lines pattern i cmp) :=
    fun cmp => findPred_congr _ _ _
      (fun i hi => specBlockMatches_eq lines pattern i cmp (hin i hi))
  have hsim : ∀ i ∈ candIdxs start (lines.length - pattern.length),
      specMeanSim lines pattern i = fuzzyScoreAt lines pattern i :=
    fun i hi => (fuzzyScoreAt_eq_specMeanSim lines pattern i (hin i hi)).symm
  have hM : specMaxScore lines pattern
      (candIdxs start (lines.length - pattern.length)) =
      ((candIdxs start (lines.length - pattern.length)).map
        (fuzzyScoreAt lines pattern)).foldr max 0 := by
    unfold specMaxScore
    rw [List.map_congr_left hsim]
  simp only [seekSequence, specSeekSequence, hp0, hlt, if_false,
    Bool.false_eq_true, and_false, false_and, List.findSome?_cons,
    specStrategies, seekCandidates_false lines pattern start hp0 hlt]
  rw [hcongr, hcongr, hcongr, hcongr]
  cases hf1 : (candIdxs start (lines.length - pattern.length)).find?
      (fun i => matchesAt lines pattern i fun a b => a == b) with
  | some i => simp
  | none =>
    simp only [Option.map_none']
    cases hf2 : (candIdxs start (lines.length - pattern.length)).find?
        (fun i => matchesAt lines pattern i fun a b => trimEndStr a == trimEndStr b) with
    | some i => simp
    | none =>
      simp only [Option.map_none']
      cases hf3 : (candIdxs start (lines.length - pattern.length)).find?
          (fun i => matchesAt lines pattern i fun a b => trimStr a == trimStr b) with
      | some i => simp
      | none =>
        simp only [Option.map_none']
        cases hf4 : (candIdxs start (lines.length - pattern.length)).find?
            (fun i => matchesAt lines pattern i
              fun a b => normalizeUnicode a == normalizeUnicode b) with
        | some i => simp
        | none =>
          simp only [Option.map_none', List.findSome?_nil]
          have hb2 : (fuzzyBest lines pattern
              (candIdxs start (lines.length - pattern.length))).2 =
              ((candIdxs start (lines.length - pattern.length)).map
                (fuzzyScoreAt lines pattern)).foldr max 0 := by
            rw [fuzzyBest_eq_seekFold, seekFold_snd]
          rw [hM]
          cases hb1 : (fuzzyBest lines pattern
              (candIdxs start (lines.length - pattern.length))).1 with
          | none =>
            have hzero : fuzzyBest lines pattern
                (candIdxs start (lines.length - pattern.length)) =
                ((none : Option Nat), (0 : ℚ)) := by
              rw [fuzzyBest_eq_seekFold] at hb1 ⊢
              exact seekFold_none _ _ _ hb1
            have hM0 : ((candIdxs start (lines.length - pattern.length)).map
                (fuzzyScoreAt lines pattern)).foldr max 0 = 0 := by
              rw [← hb2, hzero]
            dsimp only
            simp only [hb2, hM0]
            rw [if_neg (show ¬ FUZZY_THRESHOLD ≤ (0 : ℚ) by
              norm_num [FUZZY_THRESHOLD])]
          | some i =>
            dsimp only
            rw [hb2]
            by_cases hacc : FUZZY_THRESHOLD ≤
                ((candIdxs start (lines.length - pattern.length)).map
                  (fuzzyScoreAt lines pattern)).foldr max 0
            · rw [if_pos hacc, if_pos hacc]
              have h0M : ((0 : ℚ)) < ((candIdxs start
                  (lines.length - pattern.length)).map
                  (fuzzyScoreAt lines pattern)).foldr max 0 :=
                lt_of_lt_of_le (by norm_num [FUZZY_THRESHOLD]) hacc
              have hfind := seekFold_find (fuzzyScoreAt lines pattern)
                (candIdxs start (lines.length - pattern.length))
                ((none : Option Nat), (0 : ℚ)) h0M
              rw [fuzzyBest_eq_seekFold] at hb1
              rw [hb1] at hfind
              have hswap : (candIdxs start (lines.length - pattern.length)).find?
                  (fun j => decide (fuzzyScoreAt lines pattern j =
                    ((candIdxs start (lines.length - pattern.length)).map
                      (fuzzyScoreAt lines pattern)).foldr max 0)) =
                  (candIdxs start (lines.length - pattern.length)).find?
                  (fun j => decide (specMeanSim lines pattern j =
                    ((candIdxs start (lines.length - pattern.length)).map
                      (fuzzyScoreAt lines pattern)).foldr max 0)) := by
                apply findPred_congr
                intro j hj
                simp only [hsim j hj]
              rw [← hswap, ← hfind]
            · rw [if_neg hacc, if_neg hacc]


/-! ## Helper lemmas: the Levenshtein distance is at most the longer length -/

theorem levNextAux_length (aC : Char) (bs : List Char) (prevRest : List Nat)
    (pd cp : Nat) : (levNextAux aC bs prevRest pd cp).length = bs.length := by
  induction bs generalizing prevRest pd cp with
  | nil => rfl
  | cons bC bt ih => simp [levNextAux, ih]

theorem levNext_length (aC : Char) (b : List Char) (prev : List Nat) :
    (levNext aC b prev).length = b.length + 1 := by
  simp [levNext, levNextAux_length]

theorem levNextAux_bound (aC : Char) (bs : List Char) :
    ∀ (prevRest : List Nat) (pd cp i d : Nat),
    (∀ k (h : k < prevRest.length), prevRest.get ⟨k, h⟩ ≤ max i (d + 1 + k)) →
    pd ≤ max i d → cp ≤ max (i + 1) d →
    ∀ k (h : k < (levNextAux aC bs prevRest pd cp).length),
      (levNextAux aC bs prevRest pd cp).get ⟨k, h⟩ ≤ max (i + 1) (d + 1 + k) := by
  induction bs with
  | nil => intro _ _ _ _ _ _ _ _ k h; simp [levNextAux] at h
  | cons bC bt ih =>
    intro prevRest pd cp i d hrest hpd hcp k h
    have hhead : min (prevRest.headD 0 + 1)
        (min (cp + 1) (pd + (if aC = bC then 0 else 1))) ≤
        max (i + 1) (d + 1) := by
      have h1 : pd + (if aC = bC then 0 else 1) ≤ max i d + 1 := by
        split <;> omega
      have h2 : max i d + 1 = max (i + 1) (d + 1) := by omega
      omega
    match k with
    | 0 => simpa [levNextAux] using hhead
    | k + 1 =>
      have hrest' : ∀ k (h : k < prevRest.tail.length),
          prevRest.tail.get ⟨k, h⟩ ≤ max i (d + 1 + 1 + k) := by
        intro k hk
        have hk' : k + 1 < prevRest.length := by
          cases prevRest with
          | nil => simp at hk
          | cons p ps => simpa using Nat.succ_lt_succ (by simpa using hk)
        have := hrest (k + 1) hk'
        have hget : prevRest.tail.get ⟨k, hk⟩ = prevRest.get ⟨k + 1, hk'⟩ := by
          cases prevRest with
          | nil => simp at hk
          | cons p ps => rfl
        rw [hget]
        have harith : max i (d + 1 + (k + 1)) = max i (d + 1 + 1 + k) := by
          omega
        rw [← harith]
        exact this
      have hpd' : prevRest.headD 0 ≤ max i (d + 1) := by
        cases prevRest with
        | nil => simp
        | cons p ps =>
          have := hrest 0 (by simp)
          simpa using this
      have hcp' : min (prevRest.headD 0 + 1)
          (min (cp + 1) (pd + (if aC = bC then 0 else 1))) ≤
          max (i + 1) (d + 1) := hhead
      have hk2 : k < (levNextAux aC bt prevRest.tail (prevRest.headD 0)
          (min (prevRest.headD 0 + 1)
            (min (cp + 1) (pd + (if aC = bC then 0 else 1))))).length := by
        simp only [levNextAux, List.length_cons] at h
        simpa [levNextAux_length] using Nat.lt_of_succ_lt_succ h
      have := ih prevRest.tail (prevRest.headD 0) _ i (d + 1) hrest' hpd' hcp' k hk2
      have hgoal : (levNextAux aC (bC :: bt) prevRest pd cp).get ⟨k + 1, h⟩ =
          (levNextAux aC bt prevRest.tail (prevRest.headD 0)
            (min (prevRest.headD 0 + 1)
              (min (cp + 1) (pd + (if aC = bC then 0 else 1))))).get ⟨k, hk2⟩ := by
        rfl
      rw [hgoal]
      have harith : max (i + 1) (d + 1 + (k + 1)) = max (i + 1) (d + 1 + 1 + k) := by
        omega
      rw [harith]
      exact this


theorem levNext_bound (aC : Char) (b : List Char) (prev : List Nat) (i : Nat)
    (hlen : prev.length = b.length + 1)
    (hprev : ∀ k (h : k < prev.length), prev.get ⟨k, h⟩ ≤ max i k) :
    ∀ k (h : k < (levNext aC b prev).length),
      (levNext aC b prev).get ⟨k, h⟩ ≤ max (i + 1) k := by
  have hne : prev ≠ [] := by
    intro h0; rw [h0] at hlen; simp at hlen
  have hhead : prev.headD 0 ≤ max i 0 := by
    cases prev with
    | nil => exact absurd rfl hne
    | cons p ps => simpa using hprev 0 (by simp)
  intro k h
  match k with
  | 0 =>
    have : prev.headD 0 + 1 ≤ max (i + 1) 0 := by
      simp only [Nat.max_zero] at hhead ⊢
      omega
    simpa [levNext] using this
  | k + 1 =>
    have hrest : ∀ m (hm : m < prev.tail.length),
        prev.tail.get ⟨m, hm⟩ ≤ max i (0 + 1 + m) := by
      intro m hm
      have hm' : m + 1 < prev.length := by
        cases prev with
        | nil => exact absurd rfl hne
        | cons p ps => simpa using Nat.succ_lt_succ (by simpa using hm)
      have hget : prev.tail.get ⟨m, hm⟩ = prev.get ⟨m + 1, hm'⟩ := by
        cases prev with
        | nil => exact absurd rfl hne
        | cons p ps => rfl
      rw [hget]
      have := hprev (m + 1) hm'
      have harith : max i (0 + 1 + m) = max i (m + 1) := by omega
      rw [harith]
      exact this
    have hcp : prev.headD 0 + 1 ≤ max (i + 1) 0 := by
      simp only [Nat.max_zero] at hhead ⊢
      omega
    have hk2 : k < (levNextAux aC b prev.tail (prev.headD 0)
        (prev.headD 0 + 1)).length := by
      simp only [levNext, List.length_cons] at h
      simpa [levNextAux_length] using Nat.lt_of_succ_lt_succ h
    have := levNextAux_bound aC b prev.tail (prev.headD 0) (prev.headD 0 + 1)
      i 0 hrest (by simpa using hhead) hcp k hk2
    have hgoal : (levNext aC b prev).get ⟨k + 1, h⟩ =
        (levNextAux aC b prev.tail (prev.headD 0)
          (prev.headD 0 + 1)).get ⟨k, hk2⟩ := rfl
    rw [hgoal]
    have harith : max (i + 1) (k + 1) = max (i + 1) (0 + 1 + k) := by omega
    rw [harith]
    exact this

theorem levFold_bound (bs : List Char) (as : List Char) :
    ∀ (prev : List Nat) (i : Nat), prev.length = bs.length + 1 →
    (∀ k (h : k < prev.length), prev.get ⟨k, h⟩ ≤ max i k) →
    (as.foldl (fun prev aC => levNext aC bs prev) prev).length = bs.length + 1 ∧
    ∀ k (h : k < (as.foldl (fun prev aC => levNext aC bs prev) prev).length),
      (as.foldl (fun prev aC => levNext aC bs prev) prev).get ⟨k, h⟩ ≤
        max (i + as.length) k := by
  induction as with
  | nil =>
    intro prev i hlen hb
    refine ⟨hlen, ?_⟩
    intro k h
    simpa using hb k h
  | cons aC at' ih =>
    intro prev i hlen hb
    have hstep := levNext_bound aC bs prev i hlen hb
    have hlen' : (levNext aC bs prev).length = bs.length + 1 :=
      levNext_length aC bs prev
    have := ih (levNext aC bs prev) (i + 1) hlen' hstep
    refine ⟨this.1, ?_⟩
    intro k h
    have harith : i + 1 + at'.length = i + (at'.length + 1) := by omega
    have hx := this.2 k h
    rw [harith] at hx
    simpa using hx

theorem levenshteinDistance_le (a b : String) :
    levenshteinDistance a b ≤ max a.length b.length := by
  have hla : a.length = a.data.length := rfl
  have hlb : b.length = b.data.length := rfl
  simp only [levenshteinDistance]
  by_cases h1 : a.data = b.data
  · rw [if_pos h1]
    exact Nat.zero_le _
  · rw [if_neg h1]
    by_cases h2 : a.data.length = 0
    · rw [if_pos h2]
      omega
    · rw [if_neg h2]
      by_cases h3 : b.data.length = 0
      · rw [if_pos h3]
        omega
      · rw [if_neg h3]
        have hinit : ∀ k (h : k < (List.range (b.data.length + 1)).length),
            (List.range (b.data.length + 1)).get ⟨k, h⟩ ≤ max 0 k := by
          intro k h
          simp
        have hlen : (List.range (b.data.length + 1)).length =
            b.data.length + 1 := by simp
        have hfold := levFold_bound b.data a.data
          (List.range (b.data.length + 1)) 0 hlen hinit
        set row := a.data.foldl (fun prev aC => levNext aC b.data prev)
          (List.range (b.data.length + 1)) with hrow
        have hrowlen : row.length = b.data.length + 1 := hfold.1
        have hrowne : row ≠ [] := by
          intro h0; rw [h0] at hrowlen; simp at hrowlen
        have hidx : row.length - 1 < row.length := by omega
        have hbound := hfold.2 (row.length - 1) hidx
        rw [List.getLast?_eq_getLast row hrowne]
        rw [List.getLast_eq_getElem row hrowne]
        simp only [Option.getD_some]
        have hgetelem : row[row.length - 1] =
            row.get ⟨row.length - 1, hidx⟩ := by
          simp [List.get_eq_getElem]
        rw [hgetelem]
        have hmax : max (0 + a.data.length) (row.length - 1) ≤
            max a.length b.length := by omega
        exact le_trans hbound hmax


/-! ## Helper lemmas: similarity and fuzzy-score bounds -/

theorem similarityScore_nonneg (a b : String) : 0 ≤ similarityScore a b := by
  unfold similarityScore
  by_cases h1 : a.length = 0 ∧ b.length = 0
  · rw [if_pos h1]; norm_num
  · rw [if_neg h1]
    by_cases h2 : max a.length b.length = 0
    · rw [if_pos h2]; norm_num
    · rw [if_neg h2]
      have hd : levenshteinDistance a b ≤ max a.length b.length :=
        levenshteinDistance_le a b
      have hpos : (0 : ℚ) < ((max a.length b.length : ℕ) : ℚ) := by
        exact_mod_cast Nat.pos_of_ne_zero h2
      have : (levenshteinDistance a b : ℚ) /
          ((max a.length b.length : ℕ) : ℚ) ≤ 1 := by
        rw [div_le_one hpos]
        exact_mod_cast hd
      linarith

theorem similarityScore_le_one (a b : String) : similarityScore a b ≤ 1 := by
  unfold similarityScore
  by_cases h1 : a.length = 0 ∧ b.length = 0
  · rw [if_pos h1]
  · rw [if_neg h1]
    by_cases h2 : max a.length b.length = 0
    · rw [if_pos h2]
    · rw [if_neg h2]
      have hpos : (0 : ℚ) < ((max a.length b.length : ℕ) : ℚ) := by
        exact_mod_cast Nat.pos_of_ne_zero h2
      have : (0 : ℚ) ≤ (levenshteinDistance a b : ℚ) /
          ((max a.length b.length : ℕ) : ℚ) :=
        div_nonneg (by positivity) (le_of_lt hpos)
      linarith

theorem levenshteinDistance_self (a : String) : levenshteinDistance a a = 0 := by
  simp [levenshteinDistance]

theorem similarityScore_self (a : String) : similarityScore a a = 1 := by
  unfold similarityScore
  by_cases h1 : a.length = 0 ∧ a.length = 0
  · rw [if_pos h1]
  · rw [if_neg h1]
    have h2 : ¬ max a.length a.length = 0 := by
      simp only [Nat.max_self]
      intro h0
      exact h1 ⟨h0, h0⟩
    rw [if_neg h2, levenshteinDistance_self]
    simp

theorem fuzzyScoreAt_nonneg (lines pattern : List String) (i : Nat) :
    0 ≤ fuzzyScoreAt lines pattern i := by
  unfold fuzzyScoreAt
  rw [foldl_add_eq_sum, zero_add]
  apply div_nonneg
  · apply List.sum_nonneg
    intro x hx
    rcases List.mem_map.mp hx with ⟨j, _, rfl⟩
    exact similarityScore_nonneg _ _
  · positivity

theorem fuzzyScoreAt_le_one (lines pattern : List String) (i : Nat) :
    fuzzyScoreAt lines pattern i ≤ 1 := by
  unfold fuzzyScoreAt
  rw [foldl_add_eq_sum, zero_add]
  by_cases hp : pattern.length = 0
  · simp [hp]
  · have hpos : (0 : ℚ) < (pattern.length : ℚ) := by
      exact_mod_cast Nat.pos_of_ne_zero hp
    rw [div_le_one hpos]
    have hsum := List.sum_le_card_nsmul
      ((List.range pattern.length).map fun j =>
        similarityScore (normalizeLineForFuzzy (lines.getD (i + j) ""))
          (normalizeLineForFuzzy (pattern.getD j ""))) 1
      (by
        intro x hx
        rcases List.mem_map.mp hx with ⟨j, _, rfl⟩
        exact similarityScore_le_one _ _)
    simpa using hsum

theorem fuzzyScoreAt_exact (lines pattern : List String) (i : Nat)
    (hne : pattern ≠ [])
    (hm : matchesAt lines pattern i (fun a b => a == b) = true) :
    fuzzyScoreAt lines pattern i = 1 := by
  unfold fuzzyScoreAt
  rw [foldl_add_eq_sum, zero_add]
  have heach : ∀ j ∈ List.range pattern.length,
      similarityScore (normalizeLineForFuzzy (lines.getD (i + j) ""))
        (normalizeLineForFuzzy (pattern.getD j "")) = 1 := by
    intro j hj
    have := (List.all_eq_true.mp hm) j hj
    have heq : lines.getD (i + j) "" = pattern.getD j "" := by
      exact eq_of_beq (by simpa using this)
    rw [heq]
    exact similarityScore_self _
  rw [List.map_congr_left heach]
  have hlen : ¬ pattern.length = 0 := fun h0 => hne (List.length_eq_zero.mp h0)
  have hpos : (0 : ℚ) < (pattern.length : ℚ) := by
    exact_mod_cast Nat.pos_of_ne_zero hlen
  simp [List.map_const', div_eq_one_iff_eq (ne_of_gt hpos)]


/-- Claim C9: for every haystack, pattern, start index and end-of-file flag,
the confidence returned by `seekSequence` lies in `[0, 1]`; whenever a
defined index is returned the confidence is at least the fuzzy acceptance
threshold 0.92; and when no index is returned the confidence is below the
threshold, bounds every candidate's fuzzy score from above, and is either 0
or the fuzzy score of some scanned candidate position (the best fuzzy score
found). -/
theorem c9_confidence_bounds (lines pattern : List String) (start : Nat)
    (eof : Bool) :
    (0 ≤ (seekSequence lines pattern start eof).confidence ∧
      (seekSequence lines pattern start eof).confidence ≤ 1) ∧
    ((seekSequence lines pattern start eof).index.isSome →
      FUZZY_THRESHOLD ≤ (seekSequence lines pattern start eof).confidence) ∧
    ((seekSequence lines pattern start eof).index = none →
      (seekSequence lines pattern start eof).confidence < FUZZY_THRESHOLD ∧
      (∀ i ∈ seekCandidates lines pattern start eof,
        fuzzyScoreAt lines pattern i ≤
          (seekSequence lines pattern start eof).confidence) ∧
      ((seekSequence lines pattern start eof).confidence = 0 ∨
        ∃ i ∈ seekCandidates lines pattern start eof,
          (seekSequence lines pattern start eof).confidence =
            fuzzyScoreAt lines pattern i)) := by
  by_cases hp0 : pattern.length = 0
  · have heq : seekSequence lines pattern start eof = ⟨some start, 1⟩ := by
      simp [seekSequence, hp0]
    rw [heq]
    refine ⟨⟨by norm_num, by norm_num⟩, ?_, ?_⟩
    · intro _
      norm_num [FUZZY_THRESHOLD]
    · intro hnone
      simp at hnone
  · by_cases hlt : lines.length < pattern.length
    · have heq : seekSequence lines pattern start eof = ⟨none, 0⟩ := by
        simp [seekSequence, hp0, hlt]
      have hcands : seekCandidates lines pattern start eof = [] := by
        simp [seekCandidates, hp0, hlt]
      rw [heq, hcands]
      refine ⟨⟨le_refl 0, by norm_num⟩, ?_, ?_⟩
      · intro hsome
        simp at hsome
      · intro _
        refine ⟨by norm_num [FUZZY_THRESHOLD], ?_, Or.inl rfl⟩
        intro i hi
        simp at hi
    · simp only [seekSequence, if_neg hp0, if_neg hlt]
      cases hf1 : (candIdxs
          (if eof = true then lines.length - pattern.length else start)
          (lines.length - pattern.length)).find?
          (fun i => matchesAt lines pattern i fun a b => a == b) with
      | some i =>
        refine ⟨⟨by norm_num, by norm_num⟩, fun _ => by norm_num [FUZZY_THRESHOLD],
          fun hnone => by simp at hnone⟩
      | none =>
      cases hf2 : (candIdxs
          (if eof = true then lines.length - pattern.length else start)
          (lines.length - pattern.length)).find?
          (fun i => matchesAt lines pattern i
            fun a b => trimEndStr a == trimEndStr b) with
      | some i =>
        refine ⟨⟨by norm_num, by norm_num⟩, fun _ => by norm_num [FUZZY_THRESHOLD],
          fun hnone => by simp at hnone⟩
      | none =>
      cases hf3 : (candIdxs
          (if eof = true then lines.length - pattern.length else start)
          (lines.length - pattern.length)).find?
          (fun i => matchesAt lines pattern i fun a b => trimStr a == trimStr b) with
      | some i =>
        refine ⟨⟨by norm_num, by norm_num⟩, fun _ => by norm_num [FUZZY_THRESHOLD],
          fun hnone => by simp at hnone⟩
      | none =>
      cases hf4 : (candIdxs
          (if eof = true then lines.length - pattern.length else start)
          (lines.length - pattern.length)).find?
          (fun i => matchesAt lines pattern i
            fun a b => normalizeUnicode a == normalizeUnicode b) with
      | some i =>
        refine ⟨⟨by norm_num, by norm_num⟩, fun _ => by norm_num [FUZZY_THRESHOLD],
          fun hnone => by simp at hnone⟩
      | none =>
      have hb2 : (fuzzyBest lines pattern
          (seekCandidates lines pattern start eof)).2 =
          ((seekCandidates lines pattern start eof).map
            (fuzzyScoreAt lines pattern)).foldr max 0 := by
        rw [fuzzyBest_eq_seekFold, seekFold_snd]
      have hM0 : (0 : ℚ) ≤ ((seekCandidates lines pattern start eof).map
          (fuzzyScoreAt lines pattern)).foldr max 0 := le_foldrMax _ 0
      have hM1 : ((seekCandidates lines pattern start eof).map
          (fuzzyScoreAt lines pattern)).foldr max 0 ≤ 1 := by
        apply foldrMax_le _ _ _ (by norm_num)
        intro x hx
        rcases List.mem_map.mp hx with ⟨j, _, rfl⟩
        exact fuzzyScoreAt_le_one lines pattern j
      have hMub : ∀ i ∈ seekCandidates lines pattern start eof,
          fuzzyScoreAt lines pattern i ≤
            ((seekCandidates lines pattern start eof).map
              (fuzzyScoreAt lines pattern)).foldr max 0 := by
        intro i hi
        exact mem_le_foldrMax _ _ _ (List.mem_map_of_mem _ hi)
      have hMat : ((seekCandidates lines pattern start eof).map
            (fuzzyScoreAt lines pattern)).foldr max 0 = 0 ∨
          ∃ i ∈ seekCandidates lines pattern start eof,
            ((seekCandidates lines pattern start eof).map
              (fuzzyScoreAt lines pattern)).foldr max 0 =
              fuzzyScoreAt lines pattern i := by
        rcases foldrMax_attain ((seekCandidates lines pattern start eof).map
          (fuzzyScoreAt lines pattern)) 0 with h | h
        · exact Or.inl h
        · rcases List.mem_map.mp h with ⟨i, hi, he⟩
          exact Or.inr ⟨i, hi, he.symm⟩
      cases hb1 : (fuzzyBest lines pattern
          (seekCandidates lines pattern start eof)).1 with
      | none =>
        dsimp only
        have hzero : fuzzyBest lines pattern
            (seekCandidates lines pattern start eof) =
            ((none : Option Nat), (0 : ℚ)) := by
          rw [fuzzyBest_eq_seekFold] at hb1 ⊢
          exact seekFold_none _ _ _ hb1
        have hMzero : ((seekCandidates lines pattern start eof).map
            (fuzzyScoreAt lines pattern)).foldr max 0 = 0 := by
          rw [← hb2, hzero]
        rw [hb2, hMzero]
        refine ⟨⟨le_refl 0, by norm_num⟩, fun hsome => by simp at hsome,
          fun _ => ?_⟩
        refine ⟨by norm_num [FUZZY_THRESHOLD], ?_, Or.inl rfl⟩
        intro i hi
        exact le_of_le_of_eq (hMub i hi) hMzero
      | some i =>
        dsimp only
        rw [hb2]
        by_cases hacc : FUZZY_THRESHOLD ≤
            ((seekCandidates lines pattern start eof).map
              (fuzzyScoreAt lines pattern)).foldr max 0
        · rw [if_pos hacc]
          exact ⟨⟨hM0, hM1⟩, fun _ => hacc, fun hnone => by simp at hnone⟩
        · rw [if_neg hacc]
          exact ⟨⟨hM0, hM1⟩, fun hsome => by simp at hsome,
            fun _ => ⟨not_le.mp hacc, hMub, hMat⟩⟩


/-! ## Helper lemmas: where a returned index can lie -/

theorem candIdxs_self (m : Nat) : candIdxs m m = [m] := by
  simp [candIdxs, List.range']

theorem mem_seekCandidates_true {lines pattern : List String} {start i : Nat}
    (hp0 : ¬ pattern.length = 0) (hlt : ¬ lines.length < pattern.length)
    (h : i ∈ seekCandidates lines pattern start true) :
    i = lines.length - pattern.length ∨
      (start ≤ i ∧ i < lines.length - pattern.length) := by
  have hred : seekCandidates lines pattern start true =
      (lines.length - pattern.length) ::
        (if start < lines.length - pattern.length then
          List.range' start (lines.length - pattern.length - start) else []) := by
    simp [seekCandidates, hp0, hlt, candIdxs_self]
  rw [hred] at h
  rcases List.mem_cons.mp h with h | h
  · exact Or.inl h
  · by_cases hc : start < lines.length - pattern.length
    · rw [if_pos hc] at h
      rw [List.mem_range'_1] at h
      exact Or.inr ⟨h.1, by omega⟩
    · rw [if_neg hc] at h
      simp at h

theorem mem_seekCandidates_false {lines pattern : List String} {start i : Nat}
    (h : i ∈ seekCandidates lines pattern start false) :
    i ∈ candIdxs start (lines.length - pattern.length) := by
  simp only [seekCandidates] at h
  by_cases hg : pattern.length = 0 ∨ lines.length < pattern.length
  · rw [if_pos hg] at h
    simp at h
  · rw [if_neg hg] at h
    simpa using h

theorem seekSequence_index_ge (lines pattern : List String) (start i : Nat)
    (h : (seekSequence lines pattern start false).index = some i) :
    start ≤ i := by
  by_cases hp0 : pattern.length = 0
  · simp only [seekSequence, if_pos hp0] at h
    simp at h
    omega
  · by_cases hlt : lines.length < pattern.length
    · simp only [seekSequence, if_neg hp0, if_pos hlt] at h
      simp at h
    · simp only [seekSequence, if_neg hp0, if_neg hlt, Bool.false_eq_true,
        if_false] at h
      cases hf1 : (candIdxs start (lines.length - pattern.length)).find?
          (fun j => matchesAt lines pattern j fun a b => a == b) with
      | some j =>
        rw [hf1] at h
        dsimp only at h
        simp only [Option.some.injEq] at h
        subst h
        exact (mem_candIdxs (List.mem_of_find?_eq_some hf1)).1
      | none =>
      rw [hf1] at h
      cases hf2 : (candIdxs start (lines.length - pattern.length)).find?
          (fun j => matchesAt lines pattern j
            fun a b => trimEndStr a == trimEndStr b) with
      | some j =>
        rw [hf2] at h
        dsimp only at h
        simp only [Option.some.injEq] at h
        subst h
        exact (mem_candIdxs (List.mem_of_find?_eq_some hf2)).1
      | none =>
      rw [hf2] at h
      cases hf3 : (candIdxs start (lines.length - pattern.length)).find?
          (fun j => matchesAt lines pattern j
            fun a b => trimStr a == trimStr b) with
      | some j =>
        rw [hf3] at h
        dsimp only at h
        simp only [Option.some.injEq] at h
        subst h
        exact (mem_candIdxs (List.mem_of_find?_eq_some hf3)).1
      | none =>
      rw [hf3] at h
      cases hf4 : (candIdxs start (lines.length - pattern.length)).find?
          (fun j => matchesAt lines pattern j
            fun a b => normalizeUnicode a == normalizeUnicode b) with
      | some j =>
        rw [hf4] at h
        dsimp only at h
        simp only [Option.some.injEq] at h
        subst h
        exact (mem_candIdxs (List.mem_of_find?_eq_some hf4)).1
      | none =>
      rw [hf4] at h
      cases hb1 : (fuzzyBest lines pattern
          (seekCandidates lines pattern start false)).1 with
      | none =>
        rw [hb1] at h
        dsimp only at h
        simp at h
      | some j =>
        rw [hb1] at h
        dsimp only at h
        by_cases hacc : FUZZY_THRESHOLD ≤ (fuzzyBest lines pattern
            (seekCandidates lines pattern start false)).2
        · rw [if_pos hacc] at h
          dsimp only at h
          simp only [Option.some.injEq] at h
          subst h
          rw [fuzzyBest_eq_seekFold] at hb1
          rcases seekFold_mem _ _ _ _ hb1 with hm | hm
          · exact (mem_candIdxs (mem_seekCandidates_false hm)).1
          · simp at hm
        · rw [if_neg hacc] at h
          dsimp only at h
          simp at h


/-- Claim C5 (amended): with `preferEnd` set, the search starts at
`haystackLength − patternLength` — an exact match at that end position is
returned with confidence 1 even when the pattern also occurs earlier; any
returned index is either the end position or lies in `[startIndex, endPos)`;
and a pattern occurring verbatim at an earlier position at or after the
start index is still found by the fuzzy fallback scan.  (The fallback scan
is pooled with the end position inside the fuzzy pass, so it can win over a
fuzzily qualifying end position; the claim's "falls back only if nothing
qualifies at the end position" fails, see the counterexample.) -/
theorem c5_prefer_end_fallback (lines pattern : List String) (start : Nat)
    (h1 : pattern ≠ []) (h2 : pattern.length ≤ lines.length) :
    (matchesAt lines pattern (lines.length - pattern.length)
        (fun a b => a == b) = true →
      seekSequence lines pattern start true =
        ⟨some (lines.length - pattern.length), 1⟩) ∧
    (∀ i, (seekSequence lines pattern start true).index = some i →
      i = lines.length - pattern.length ∨
        (start ≤ i ∧ i < lines.length - pattern.length)) ∧
    (∀ i, start ≤ i → i < lines.length - pattern.length →
      matchesAt lines pattern i (fun a b => a == b) = true →
      ((seekSequence lines pattern start true).index).isSome = true) := by
  have hp0 : ¬ pattern.length = 0 := fun h => h1 (List.length_eq_zero.mp h)
  have hlt : ¬ lines.length < pattern.length := not_lt.mpr h2
  refine ⟨?_, ?_, ?_⟩
  · intro hm
    have hfind : (candIdxs (lines.length - pattern.length)
        (lines.length - pattern.length)).find?
        (fun i => matchesAt lines pattern i fun a b => a == b) =
        some (lines.length - pattern.length) := by
      rw [candIdxs_self]
      simp [List.find?, hm]
    simp only [seekSequence, if_neg hp0, if_neg hlt, reduceIte]
    rw [hfind]
  · intro i h
    simp only [seekSequence, if_neg hp0, if_neg hlt, reduceIte] at h
    cases hf1 : (candIdxs (lines.length - pattern.length)
        (lines.length - pattern.length)).find?
        (fun j => matchesAt lines pattern j fun a b => a == b) with
    | some j =>
      rw [hf1] at h
      dsimp only at h
      simp only [Option.some.injEq] at h
      subst h
      have := List.mem_of_find?_eq_some hf1
      rw [candIdxs_self] at this
      exact Or.inl (by simpa using this)
    | none =>
    rw [hf1] at h
    cases hf2 : (candIdxs (lines.length - pattern.length)
        (lines.length - pattern.length)).find?
        (fun j => matchesAt lines pattern j
          fun a b => trimEndStr a == trimEndStr b) with
    | some j =>
      rw [hf2] at h
      dsimp only at h
      simp only [Option.some.injEq] at h
      subst h
      have := List.mem_of_find?_eq_some hf2
      rw [candIdxs_self] at this
      exact Or.inl (by simpa using this)
    | none =>
    rw [hf2] at h
    cases hf3 : (candIdxs (lines.length - pattern.length)
        (lines.length - pattern.length)).find?
        (fun j => matchesAt lines pattern j
          fun a b => trimStr a == trimStr b) with
    | some j =>
      rw [hf3] at h
      dsimp only at h
      simp only [Option.some.injEq] at h
      subst h
      have := List.mem_of_find?_eq_some hf3
      rw [candIdxs_self] at this
      exact Or.inl (by simpa using this)
    | none =>
    rw [hf3] at h
    cases hf4 : (candIdxs (lines.length - pattern.length)
        (lines.length - pattern.length)).find?
        (fun j => matchesAt lines pattern j
          fun a b => normalizeUnicode a == normalizeUnicode b) with
    | some j =>
      rw [hf4] at h
      dsimp only at h
      simp only [Option.some.injEq] at h
      subst h
      have := List.mem_of_find?_eq_some hf4
      rw [candIdxs_self] at this
      exact Or.inl (by simpa using this)
    | none =>
    rw [hf4] at h
    cases hb1 : (fuzzyBest lines pattern
        (seekCandidates lines pattern start true)).1 with
    | none =>
      rw [hb1] at h
      dsimp only at h
      simp at h
    | some j =>
      rw [hb1] at h
      dsimp only at h
      by_cases hacc : FUZZY_THRESHOLD ≤ (fuzzyBest lines pattern
          (seekCandidates lines pattern start true)).2
      · rw [if_pos hacc] at h
        dsimp only at h
        simp only [Option.some.injEq] at h
        subst h
        rw [fuzzyBest_eq_seekFold] at hb1
        rcases seekFold_mem _ _ _ _ hb1 with hm | hm
        · exact mem_seekCandidates_true hp0 hlt hm
        · simp at hm
      · rw [if_neg hacc] at h
        dsimp only at h
        simp at h
  · intro i hsi hilt hm
    simp only [seekSequence, if_neg hp0, if_neg hlt, reduceIte]
    cases hf1 : (candIdxs (lines.length - pattern.length)
        (lines.length - pattern.length)).find?
        (fun j => matchesAt lines pattern j fun a b => a == b) with
    | some j => rfl
    | none =>
    cases hf2 : (candIdxs (lines.length - pattern.length)
        (lines.length - pattern.length)).find?
        (fun j => matchesAt lines pattern j
          fun a b => trimEndStr a == trimEndStr b) with
    | some j => rfl
    | none =>
    cases hf3 : (candIdxs (lines.length - pattern.length)
        (lines.length - pattern.length)).find?
        (fun j => matchesAt lines pattern j
          fun a b => trimStr a == trimStr b) with
    | some j => rfl
    | none =>
    cases hf4 : (candIdxs (lines.length - pattern.length)
        (lines.length - pattern.length)).find?
        (fun j => matchesAt lines pattern j
          fun a b => normalizeUnicode a == normalizeUnicode b) with
    | some j => rfl
    | none =>
    have hicand : i ∈ seekCandidates lines pattern start true := by
      have hred : seekCandidates lines pattern start true =
          (lines.length - pattern.length) ::
            (if start < lines.length - pattern.length then
              List.range' start (lines.length - pattern.length - start)
            else []) := by
        simp [seekCandidates, hp0, hlt, candIdxs_self]
      rw [hred]
      apply List.mem_cons_of_mem
      rw [if_pos (by omega)]
      rw [List.mem_range'_1]
      exact ⟨hsi, by omega⟩
    have hscore : fuzzyScoreAt lines pattern i = 1 :=
      fuzzyScoreAt_exact lines pattern i h1 hm
    have hone : (1 : ℚ) ≤ ((seekCandidates lines pattern start true).map
        (fuzzyScoreAt lines pattern)).foldr max 0 := by
      rw [← hscore]
      exact mem_le_foldrMax _ _ _ (List.mem_map_of_mem _ hicand)
    have hb2 : (fuzzyBest lines pattern
        (seekCandidates lines pattern start true)).2 =
        ((seekCandidates lines pattern start true).map
          (fuzzyScoreAt lines pattern)).foldr max 0 := by
      rw [fuzzyBest_eq_seekFold, seekFold_snd]
    cases hb1 : (fuzzyBest lines pattern
        (seekCandidates lines pattern start true)).1 with
    | none =>
      exfalso
      have hzero : fuzzyBest lines pattern
          (seekCandidates lines pattern start true) =
          ((none : Option Nat), (0 : ℚ)) := by
        rw [fuzzyBest_eq_seekFold] at hb1 ⊢
        exact seekFold_none _ _ _ hb1
      have : ((seekCandidates lines pattern start true).map
          (fuzzyScoreAt lines pattern)).foldr max 0 = 0 := by
        rw [← hb2, hzero]
      rw [this] at hone
      norm_num at hone
    | some j =>
      dsimp only
      rw [if_pos (by
        rw [hb2]
        calc FUZZY_THRESHOLD ≤ 1 := by norm_num [FUZZY_THRESHOLD]
          _ ≤ _ := hone)]
      rfl


set_option maxRecDepth 4000 in
/-- Claim C5, counterexample to the claim as stated: with `preferEnd` set on
haystack `["abcdefghijklm", "x", "abcdefghijklm!"]` and pattern
`["abcdefghijklm"]`, the end position 2 qualifies under the fuzzy threshold
(score 13/14 ≥ 0.92), yet the search still falls back to scanning from the
start index and returns index 0 — so it is not true that the fallback runs
only if nothing qualifies at the end position. -/
theorem c5_counterexample :
    FUZZY_THRESHOLD ≤ fuzzyScoreAt ["abcdefghijklm", "x", "abcdefghijklm!"]
      ["abcdefghijklm"] 2 ∧
    (["abcdefghijklm", "x", "abcdefghijklm!"] : List String).length -
      (["abcdefghijklm"] : List String).length = 2 ∧
    seekSequence ["abcdefghijklm", "x", "abcdefghijklm!"]
      ["abcdefghijklm"] 0 true = ⟨some 0, 1⟩ ∧
    (0 : Nat) ≠ 2 := by
  have hsim : similarityScore "abcdefghijklm!" "abcdefghijklm" =
      13 / 14 := by
    simp only [similarityScore]
    rw [if_neg (by decide), if_neg (by decide)]
    rw [show levenshteinDistance "abcdefghijklm!" "abcdefghijklm" = 1 from
      by decide]
    rw [show max ("abcdefghijklm!").length ("abcdefghijklm").length = 14 from
      by decide]
    norm_num
  have hn1 : normalizeLineForFuzzy "abcdefghijklm!" = "abcdefghijklm!" := by
    decide
  have hn2 : normalizeLineForFuzzy "abcdefghijklm" = "abcdefghijklm" := by
    decide
  have hn3 : normalizeLineForFuzzy "x" = "x" := by decide
  have hscore : fuzzyScoreAt ["abcdefghijklm", "x", "abcdefghijklm!"]
      ["abcdefghijklm"] 2 = 13 / 14 := by
    have hrfl : fuzzyScoreAt ["abcdefghijklm", "x", "abcdefghijklm!"]
        ["abcdefghijklm"] 2 =
        (0 + similarityScore (normalizeLineForFuzzy "abcdefghijklm!")
          (normalizeLineForFuzzy "abcdefghijklm")) / ((1 : ℕ) : ℚ) := rfl
    rw [hrfl, hn1, hn2, hsim]
    norm_num
  have hsimx : similarityScore "x" "abcdefghijklm" = 0 := by
    simp only [similarityScore]
    rw [if_neg (by decide), if_neg (by decide)]
    rw [show levenshteinDistance "x" "abcdefghijklm" = 13 from by decide]
    rw [show max ("x").length ("abcdefghijklm").length = 13 from by decide]
    norm_num
  have hscorex : fuzzyScoreAt ["abcdefghijklm", "x", "abcdefghijklm!"]
      ["abcdefghijklm"] 1 = 0 := by
    have hrfl : fuzzyScoreAt ["abcdefghijklm", "x", "abcdefghijklm!"]
        ["abcdefghijklm"] 1 =
        (0 + similarityScore (normalizeLineForFuzzy "x")
          (normalizeLineForFuzzy "abcdefghijklm")) / ((1 : ℕ) : ℚ) := rfl
    rw [hrfl, hn3, hn2, hsimx]
    norm_num
  have hscore0 : fuzzyScoreAt ["abcdefghijklm", "x", "abcdefghijklm!"]
      ["abcdefghijklm"] 0 = 1 :=
    fuzzyScoreAt_exact _ _ 0 (by decide) (by decide)
  refine ⟨by rw [hscore]; norm_num [FUZZY_THRESHOLD], by decide, ?_, by decide⟩
  have hcands : seekCandidates ["abcdefghijklm", "x", "abcdefghijklm!"]
      ["abcdefghijklm"] 0 true = [2, 0, 1] := by decide
  have hfb : fuzzyBest ["abcdefghijklm", "x", "abcdefghijklm!"]
      ["abcdefghijklm"] [2, 0, 1] = (some 0, 1) := by
    simp only [fuzzyBest, List.foldl_cons, List.foldl_nil]
    rw [hscore, hscore0, hscorex]
    rw [if_pos (by norm_num : ((none : Option Nat), (0 : ℚ)).2 < 13 / 14)]
    rw [if_pos (by norm_num : ((some 2 : Option Nat), (13 / 14 : ℚ)).2 < 1)]
    rw [if_neg (by norm_num : ¬ ((some 0 : Option Nat), (1 : ℚ)).2 < 0)]
  simp only [seekSequence, if_neg (by decide : ¬ (["abcdefghijklm"] :
      List String).length = 0),
    if_neg (by decide : ¬ (["abcdefghijklm", "x", "abcdefghijklm!"] :
      List String).length < (["abcdefghijklm"] : List String).length),
    reduceIte]
  rw [show (candIdxs ((["abcdefghijklm", "x", "abcdefghijklm!"] :
      List String).length - (["abcdefghijklm"] : List String).length)
      ((["abcdefghijklm", "x", "abcdefghijklm!"] : List String).length -
        (["abcdefghijklm"] : List String).length)).find?
      (fun i => matchesAt ["abcdefghijklm", "x", "abcdefghijklm!"]
        ["abcdefghijklm"] i fun a b => a == b) = none from by decide]
  rw [show (candIdxs ((["abcdefghijklm", "x", "abcdefghijklm!"] :
      List String).length - (["abcdefghijklm"] : List String).length)
      ((["abcdefghijklm", "x", "abcdefghijklm!"] : List String).length -
        (["abcdefghijklm"] : List String).length)).find?
      (fun i => matchesAt ["abcdefghijklm", "x", "abcdefghijklm!"]
        ["abcdefghijklm"] i fun a b => trimEndStr a == trimEndStr b) =
      none from by decide]
  rw [show (candIdxs ((["abcdefghijklm", "x", "abcdefghijklm!"] :
      List String).length - (["abcdefghijklm"] : List String).length)
      ((["abcdefghijklm", "x", "abcdefghijklm!"] : List String).length -
        (["abcdefghijklm"] : List String).length)).find?
      (fun i => matchesAt ["abcdefghijklm", "x", "abcdefghijklm!"]
        ["abcdefghijklm"] i fun a b => trimStr a == trimStr b) =
      none from by decide]
  rw [show (candIdxs ((["abcdefghijklm", "x", "abcdefghijklm!"] :
      List String).length - (["abcdefghijklm"] : List String).length)
      ((["abcdefghijklm", "x", "abcdefghijklm!"] : List String).length -
        (["abcdefghijklm"] : List String).length)).find?
      (fun i => matchesAt ["abcdefghijklm", "x", "abcdefghijklm!"]
        ["abcdefghijklm"] i
          fun a b => normalizeUnicode a == normalizeUnicode b) =
      none from by decide]
  rw [hcands, hfb]
  dsimp only
  rw [if_pos (show FUZZY_THRESHOLD ≤ (1 : ℚ) by norm_num [FUZZY_THRESHOLD])]


/-! ## Helper lemmas: exact match at the search start wins pass 1 -/

theorem candIdxs_cons {s m : Nat} (h : s ≤ m) :
    candIdxs s m = s :: candIdxs (s + 1) m := by
  unfold candIdxs
  rw [show m + 1 - s = (m - s) + 1 by omega, List.range'_succ,
    show m - s = m + 1 - (s + 1) by omega]

theorem seekSequence_exact_at_start (lines pattern : List String)
    (start : Nat) (hne : pattern ≠ [])
    (hin : start + pattern.length ≤ lines.length)
    (hm : matchesAt lines pattern start (fun a b => a == b) = true) :
    seekSequence lines pattern start false = ⟨some start, 1⟩ := by
  have hp0 : ¬ pattern.length = 0 := fun h => hne (List.length_eq_zero.mp h)
  have hlt : ¬ lines.length < pattern.length := by omega
  have hfind : (candIdxs start (lines.length - pattern.length)).find?
      (fun i => matchesAt lines pattern i fun a b => a == b) = some start := by
    rw [candIdxs_cons (by omega : start ≤ lines.length - pattern.length)]
    rw [List.find?_cons_of_pos]
    exact hm
  simp only [seekSequence, if_neg hp0, if_neg hlt, Bool.false_eq_true,
    if_false]
  rw [hfind]


/-- Claim C7: for every update chunk declaring a scope context line, the
applicator locates it with the sequence matcher from the current cursor and
advances the cursor past it before resolving the old lines — except that
when the chunk's first old line equals the scope line up to surrounding
whitespace, the cursor is placed at the scope line itself; if the scope line
cannot be located, application fails with the `ApplyPatchError` naming the
context.  Stated for a single non-end-of-file chunk: (1) scope not found
fails; (2) when the first old line does not duplicate the scope line, every
recorded replacement starts strictly past the scope line; (3) when it does
and the old lines match exactly at the scope line, the replacement starts at
the scope line itself. -/
theorem c7_scope_context_cursor (lines : List String) (path : String)
    (chunk : UpdateChunk) (ctx : String)
    (hctx : chunk.changeContext = some ctx)
    (hold : chunk.oldLines ≠ [])
    (heof : chunk.isEndOfFile = false) :
    ((seekSequence lines [ctx] 0 false).index = none →
      computeReplacements lines path [chunk] =
        .error (.contextNotFound ctx path)) ∧
    (∀ idx, (seekSequence lines [ctx] 0 false).index = some idx →
      (trimStr (chunk.oldLines.headD "") ≠ trimStr ctx →
        ∀ reps, computeReplacements lines path [chunk] = .ok reps →
          ∀ r ∈ reps, idx + 1 ≤ r.startIndex) ∧
      (trimStr (chunk.oldLines.headD "") = trimStr ctx →
        matchesAt lines chunk.oldLines idx (fun a b => a == b) = true →
        idx + chunk.oldLines.length ≤ lines.length →
        computeReplacements lines path [chunk] =
          .ok [⟨idx, chunk.oldLines.length, chunk.newLines⟩])) := by
  obtain ⟨f, rest, hfl⟩ : ∃ f rest, chunk.oldLines = f :: rest := by
    cases hcl : chunk.oldLines with
    | nil => exact absurd hcl hold
    | cons f rest => exact ⟨f, rest, rfl⟩
  constructor
  · intro hnone
    simp only [computeReplacements, computeReplacementsGo, chunkStep, hctx,
      hnone]
  · intro idx hsome
    constructor
    · intro hne reps hreps r hr
      simp only [computeReplacements, computeReplacementsGo, chunkStep, hctx,
        hsome, hfl] at hreps
      rw [hfl, List.headD_cons] at hne
      rw [if_neg hne] at hreps
      simp only [if_neg (List.cons_ne_nil f rest), heof] at hreps
      cases hseek : (seekSequence lines (f :: rest) (idx + 1) false).index with
      | some found =>
        rw [hseek] at hreps
        dsimp only at hreps
        simp only [Except.ok.injEq] at hreps
        subst hreps
        have := seekSequence_index_ge lines (f :: rest) (idx + 1) found hseek
        simp only [sortByStart, List.foldl, insertByStart] at hr
        simp only [List.mem_singleton] at hr
        subst hr
        exact this
      | none =>
        rw [hseek] at hreps
        dsimp only at hreps
        by_cases htail : (f :: rest).getLast? = some ""
        · rw [if_pos htail] at hreps
          cases hseek2 : (seekSequence lines ((f :: rest).dropLast)
              (idx + 1) false).index with
          | some found =>
            rw [hseek2] at hreps
            dsimp only at hreps
            simp only [Except.ok.injEq] at hreps
            subst hreps
            have := seekSequence_index_ge lines ((f :: rest).dropLast)
              (idx + 1) found hseek2
            simp only [sortByStart, List.foldl, insertByStart] at hr
            simp only [List.mem_singleton] at hr
            subst hr
            exact this
          | none =>
            rw [hseek2] at hreps
            dsimp only at hreps
            cases hreps
        · rw [if_neg htail] at hreps
          cases hreps
    · intro heq hm hinr
      have hseek : (seekSequence lines chunk.oldLines idx false) =
          ⟨some idx, 1⟩ :=
        seekSequence_exact_at_start lines chunk.oldLines idx hold hinr hm
      simp only [computeReplacements, computeReplacementsGo, chunkStep, hctx,
        hsome, hfl]
      rw [hfl, List.headD_cons] at heq
      rw [if_pos heq]
      simp only [if_neg (List.cons_ne_nil f rest), heof]
      rw [hfl] at hseek
      rw [hseek]
      simp [sortByStart, insertByStart, hfl]


/-- Claim C6, counterexample to the claim as stated: on file lines
`["a", "b", "c"]`, a chunk with scope context `"a"`, no old lines and new
line `"X"` is recorded as an insertion at index 3 (end of file), not at the
cursor — the scope line `"a"` is located at index 0, so the claimed cursor
position would be `0 + 1 = 1`, and `3 ≠ 1`. -/
theorem c6_counterexample :
    computeReplacements ["a", "b", "c"] "f"
      [⟨some "a", false, [], ["X"], false⟩] =
      .ok [⟨3, 0, ["X"]⟩] ∧
    (seekSequence ["a", "b", "c"] ["a"] 0 false).index = some 0 ∧
    (3 : Nat) ≠ 0 + 1 := by
  refine ⟨by decide, by decide, by decide⟩

/-- Claim C6 (amended): for every update chunk with no old lines, resolution
records a pure insertion of the chunk's new lines at end-of-file — just
before the trailing blank line when the line array ends with one —
regardless of the current cursor position; a declared scope context is still
located (and failing to locate it is still an error) but does not move the
insertion point. -/
theorem c6_insertion_at_eof (lines : List String) (path : String)
    (chunk : UpdateChunk) (hold : chunk.oldLines = []) :
    (chunk.changeContext = none →
      computeReplacements lines path [chunk] =
        .ok [⟨(if lines ≠ [] ∧ lines.getLast? = some "" then
          lines.length - 1 else lines.length), 0, chunk.newLines⟩]) ∧
    (∀ ctx, chunk.changeContext = some ctx →
      ((seekSequence lines [ctx] 0 false).index = none →
        computeReplacements lines path [chunk] =
          .error (.contextNotFound ctx path)) ∧
      (∀ idx, (seekSequence lines [ctx] 0 false).index = some idx →
        computeReplacements lines path [chunk] =
          .ok [⟨(if lines ≠ [] ∧ lines.getLast? = some "" then
            lines.length - 1 else lines.length), 0, chunk.newLines⟩])) := by
  constructor
  · intro hnone
    simp only [computeReplacements, computeReplacementsGo, chunkStep, hnone,
      hold]
    simp [sortByStart, insertByStart]
  · intro ctx hctx
    constructor
    · intro hseek
      simp only [computeReplacements, computeReplacementsGo, chunkStep, hctx,
        hold, hseek]
    · intro idx hseek
      simp only [computeReplacements, computeReplacementsGo, chunkStep, hctx,
        hold, hseek]
      simp [sortByStart, insertByStart]


/-! ## Helper lemmas: trailing newlines of joined line arrays -/

theorem endsWithNewline_append (s : String) :
    endsWithNewline (s ++ "\n") = true := by
  simp [endsWithNewline, String.data_append]

theorem getLast?_append_right {α : Type} (a b : List α) (hb : b ≠ []) :
    (a ++ b).getLast? = b.getLast? := by
  induction a with
  | nil => rfl
  | cons x t ih =>
    have htb : t ++ b ≠ [] := fun h0 => hb (List.append_eq_nil.mp h0).2
    cases htb2 : t ++ b with
    | nil => exact absurd htb2 htb
    | cons y u =>
      rw [List.cons_append, htb2, List.getLast?_cons_cons, ← htb2, ih]

theorem endsWithNewline_append_left (a b : String)
    (hb : endsWithNewline b = true) :
    endsWithNewline (a ++ b) = true := by
  simp only [endsWithNewline, String.data_append, decide_eq_true_eq] at hb ⊢
  rw [getLast?_append_right a.data b.data (by
    intro h0
    rw [h0] at hb
    simp at hb)]
  exact hb

theorem joinLines_last_empty (ls : List String) (hne : ls ≠ [])
    (hlast : ls.getLast? = some "") :
    joinLines ls = "" ∨ endsWithNewline (joinLines ls) = true := by
  induction ls with
  | nil => exact absurd rfl hne
  | cons l t ih =>
    cases t with
    | nil =>
      left
      have : l = "" := by
        simpa [List.getLast?] using hlast
      rw [this]
      rfl
    | cons m u =>
      have ht : (m :: u : List String) ≠ [] := List.cons_ne_nil m u
      have hlast' : (m :: u).getLast? = some "" := by
        rw [← hlast, List.getLast?_cons_cons]
      have hj : joinLines (l :: m :: u) = l ++ "\n" ++ joinLines (m :: u) :=
        rfl
      rcases ih ht hlast' with h | h
      · right
        rw [hj, h]
        have : (l ++ "\n" ++ "" : String) = l ++ "\n" := by
          simp
        rw [this]
        exact endsWithNewline_append l
      · right
        rw [hj, String.append_assoc]
        exact endsWithNewline_append_left l _
          (endsWithNewline_append_left "\n" _ h)

theorem applySimpleReplace_trailing (content path : String)
    (chunk : UpdateChunk) (out : String)
    (h : applySimpleReplace content path chunk = .ok out) :
    endsWithNewline out = true := by
  simp only [applySimpleReplace] at h
  split at h
  · cases h
  · split at h
    · cases h
    · next m _ =>
      simp only [Except.ok.injEq] at h
      subst h
      split
      · next he => exact he
      · exact endsWithNewline_append _

theorem finalLines_trailing (nl : List String) :
    joinLines (if nl = [] ∨ ¬ nl.getLast? = some "" then nl ++ [""] else nl) =
      "" ∨
    endsWithNewline (joinLines
      (if nl = [] ∨ ¬ nl.getLast? = some "" then nl ++ [""] else nl)) =
      true := by
  by_cases hc : nl = [] ∨ ¬ nl.getLast? = some ""
  · rw [if_pos hc]
    apply joinLines_last_empty
    · simp
    · rw [getLast?_append_right nl [""] (by simp)]
      rfl
  · rw [if_neg hc]
    push_neg at hc
    exact joinLines_last_empty nl hc.1 hc.2

theorem applyHunks_trailing (content path : String)
    (chunks : List UpdateChunk) (out : String)
    (h : applyHunks content path chunks = .ok out) :
    out = "" ∨ endsWithNewline out = true := by
  simp only [applyHunks] at h
  split at h
  · cases h
  · next reps _ =>
    simp only [Except.ok.injEq] at h
    subst h
    exact finalLines_trailing _

/-- Claim C10, counterexample to the claim as stated: the update diff
`@@ a` / `-a` / `-b` applied to content `"a\nb"` succeeds and deletes every
line, producing the empty string, which does not end with a newline. -/
theorem c10_counterexample :
    applyDiffToContent "a\nb" "f"
      [⟨some "a", false, ["a", "b"], [], false⟩] = .ok "" ∧
    endsWithNewline "" = false := by
  exact ⟨by decide, by decide⟩

/-- Claim C10 (amended): for every successful update — the hunk-application
path and the whole-text simple-replace path — the produced content ends
with a newline character, except that a hunk application that deletes every
line produces the empty string; the simple-replace path always ends with a
newline. -/
theorem c10_trailing_newline (content path : String)
    (chunks : List UpdateChunk) (out : String)
    (h : applyDiffToContent content path chunks = .ok out) :
    (out = "" ∨ endsWithNewline out = true) ∧
    (∀ chunk, chunks = [chunk] → chunk.changeContext = none →
      chunk.hasContextLines = false → chunk.oldLines ≠ [] →
      endsWithNewline out = true) := by
  constructor
  · simp only [applyDiffToContent] at h
    rcases chunks with _ | ⟨c, cs⟩
    · exact applyHunks_trailing content path [] out h
    · rcases cs with _ | ⟨c2, cs2⟩
      · dsimp only at h
        split at h
        · exact Or.inr (applySimpleReplace_trailing content path c out h)
        · exact applyHunks_trailing content path [c] out h
      · exact applyHunks_trailing content path (c :: c2 :: cs2) out h
  · intro chunk hc h1 h2 h3
    subst hc
    simp only [applyDiffToContent] at h
    rw [if_pos (⟨h1, h2, h3⟩ : chunk.changeContext = none ∧
      chunk.hasContextLines = false ∧ chunk.oldLines ≠ [])] at h
    exact applySimpleReplace_trailing content path chunk out h


/-- Claim C3: an update diff consisting of a single chunk with no scope
context line and no context lines (only removed and added lines) is resolved
as the whole-text character-level replacement `applySimpleReplace`; and when
the old text occurs verbatim more than once in the (LF-normalized) file,
application fails with the error naming the occurrence count rather than
picking one occurrence.  (`findEditMatch` is modelled from the spec; its
source is not included.) -/
theorem c3_simple_replace_uniqueness (content path : String)
    (chunk : UpdateChunk) (h1 : chunk.changeContext = none)
    (h2 : chunk.hasContextLines = false) (h3 : chunk.oldLines ≠ []) :
    (applyDiffToContent content path [chunk] =
      applySimpleReplace content path chunk) ∧
    (∀ n, countOcc (normalizeToLF content).data
        (normalizeToLF (joinLines chunk.oldLines)).data = n → 1 < n →
      applyDiffToContent content path [chunk] =
        .error (.multipleOccurrences n path)) := by
  have hdisp : applyDiffToContent content path [chunk] =
      applySimpleReplace content path chunk := by
    simp only [applyDiffToContent]
    rw [if_pos (⟨h1, h2, h3⟩ : chunk.changeContext = none ∧
      chunk.hasContextLines = false ∧ chunk.oldLines ≠ [])]
  refine ⟨hdisp, ?_⟩
  intro n hc hlt
  rw [hdisp]
  simp only [applySimpleReplace, findEditMatch]
  rw [hc]
  rw [if_neg (by omega : ¬ n = 1), if_pos hlt]
  rw [if_pos (by simpa using hlt)]
  rfl


/-! ## Helper lemmas: parsed chunks always carry content lines -/

theorem parseChunkBody_nonempty (n : Nat) (ls : List String) :
    ∀ (chunk : UpdateChunk) (parsed : Nat) (c : UpdateChunk) (p : Nat),
    (1 ≤ parsed → chunk.oldLines ≠ [] ∨ chunk.newLines ≠ []) →
    parseChunkBody n ls chunk parsed = .ok (c, p) →
    1 ≤ p → c.oldLines ≠ [] ∨ c.newLines ≠ [] := by
  induction ls with
  | nil =>
    intro chunk parsed c p hinv h hp
    simp only [parseChunkBody, Except.ok.injEq, Prod.mk.injEq] at h
    obtain ⟨hc, hpp⟩ := h
    subst hc
    subst hpp
    exact hinv hp
  | cons l rest ih =>
    intro chunk parsed c p hinv h hp
    simp only [parseChunkBody] at h
    split at h
    · split at h
      · cases h
      · next hparsed =>
        simp only [Except.ok.injEq, Prod.mk.injEq] at h
        obtain ⟨hc, _⟩ := h
        subst hc
        have := hinv (by omega)
        simpa using this
    · split at h
      · exact ih _ _ _ _ (fun _ => Or.inl (by simp)) h hp
      · split at h
        · exact ih _ _ _ _ (fun _ => Or.inl (by simp)) h hp
        · split at h
          · exact ih _ _ _ _ (fun _ => Or.inr (by simp)) h hp
          · split at h
            · exact ih _ _ _ _ (fun _ => Or.inl (by simp)) h hp
            · split at h
              · cases h
              · next hparsed =>
                simp only [Except.ok.injEq, Prod.mk.injEq] at h
                obtain ⟨hc, _⟩ := h
                subst hc
                exact hinv (by omega)

theorem parseOneChunk_nonempty (lines : List String) (n : Nat) (b : Bool)
    (c : UpdateChunk) (k : Nat)
    (h : parseOneChunk lines n b = .ok (c, k)) :
    c.oldLines ≠ [] ∨ c.newLines ≠ [] := by
  simp only [parseOneChunk] at h
  split at h
  · cases h
  · split at h
    · cases h
    · split at h
      · cases h
      · split at h
        · cases h
        · next chunk parsed heq =>
          split at h
          · cases h
          · next hparsed =>
            simp only [Except.ok.injEq, Prod.mk.injEq] at h
            obtain ⟨hc, _⟩ := h
            subst hc
            exact parseChunkBody_nonempty n _ _ _ _ _
              (by intro h1; omega) heq (by omega)

theorem parseHunksGo_nonempty (fuel : Nat) :
    ∀ (ls : List String) (n : Nat) (isFirst : Bool) (chunks : List UpdateChunk),
    parseHunksGo fuel ls n isFirst = .ok chunks →
    ∀ chunk ∈ chunks, chunk.oldLines ≠ [] ∨ chunk.newLines ≠ [] := by
  induction fuel with
  | zero =>
    intro ls n isFirst chunks h
    cases h
  | succ fuel ih =>
    intro ls n isFirst chunks h
    cases ls with
    | nil =>
      simp only [parseHunksGo, Except.ok.injEq] at h
      subst h
      intro chunk hmem
      cases hmem
    | cons l rest =>
      simp only [parseHunksGo] at h
      split at h
      · exact ih rest (n + 1) isFirst chunks h
      · split at h
        · cases h
        · next chunk consumed heq =>
          split at h
          · cases h
          · next more heq2 =>
            simp only [Except.ok.injEq] at h
            subst h
            intro d hmem
            rcases List.mem_cons.mp hmem with hd | hd
            · subst hd
              exact parseOneChunk_nonempty _ _ _ _ _ heq
            · exact ih _ _ _ _ heq2 d hd

/-- Claim C8: a hunk header (bare `@@` or `@@ <context>`) followed by no
classifiable content line — end of input, or a line that is non-empty and
does not start with space, `+` or `-` — is a `ParseError` carrying a line
number; and `parseDiffHunks` never returns a chunk whose `oldLines` and
`newLines` are both empty. -/
theorem c8_empty_hunk_parse_error :
    (∀ (header : String) (rest : List String) (n : Nat) (allowMissing : Bool),
      (header = "@@" ∨ strStartsWith header "@@ " = true) →
      (rest = [] ∨ ∃ l ls, rest = l :: ls ∧ l ≠ "" ∧
        ∀ ch chs, l.data = ch :: chs → ch ≠ ' ' ∧ ch ≠ '+' ∧ ch ≠ '-') →
      ∃ e, parseOneChunk (header :: rest) n allowMissing = .error e ∧
        e.lineNumber.isSome = true) ∧
    (∀ diff chunks, parseDiffHunks diff = .ok chunks →
      ∀ chunk ∈ chunks, chunk.oldLines ≠ [] ∨ chunk.newLines ≠ []) := by
  constructor
  · intro header rest n allowMissing hhdr hbad
    have hheader : (if header = "@@" then
        some ((none : Option String), rest, 1)
        else if strStartsWith header "@@ " then
          some (some (strDrop header 3), rest, 1)
        else if allowMissing then some (none, header :: rest, 0)
        else none) = some (if header = "@@" then (none : Option String)
          else some (strDrop header 3), rest, 1) := by
      by_cases hq : header = "@@"
      · rw [if_pos hq, if_pos hq]
      · rcases hhdr with h | h
        · exact absurd h hq
        · rw [if_neg hq, if_pos h, if_neg hq]
    rcases hbad with hrest | ⟨l, ls, hrest, hlne, hlch⟩
    · subst hrest
      refine ⟨⟨"Hunk does not contain any lines", some (n + 1)⟩, ?_, rfl⟩
      simp [parseOneChunk, hheader]
    · subst hrest
      have hbody : parseChunkBody n (l :: ls)
          ⟨(if header = "@@" then (none : Option String)
            else some (strDrop header 3)), false, [], [], false⟩ 0 =
          .error (if l = EOF_MARKER then
            ⟨"Hunk does not contain any lines", some (n + 1)⟩
          else ⟨"Unexpected line in hunk", some (n + 1)⟩) := by
        by_cases hEof : l = EOF_MARKER
        · simp [parseChunkBody, hEof]
        · rw [if_neg hEof]
          simp only [parseChunkBody]
          rw [if_neg hEof]
          cases hd : l.data with
          | nil =>
            exfalso
            apply hlne
            cases l with
            | mk data =>
              simp only [String.data] at hd
              rw [hd]
          | cons ch chs =>
            have := hlch ch chs hd
            dsimp only
            rw [if_neg this.1, if_neg this.2.1, if_neg this.2.2]
            simp
      refine ⟨(if l = EOF_MARKER then
          ⟨"Hunk does not contain any lines", some (n + 1)⟩
        else ⟨"Unexpected line in hunk", some (n + 1)⟩), ?_, ?_⟩
      · simp only [parseOneChunk, hheader]
        rw [if_neg (by simp), hbody]
      · by_cases hEof : l = EOF_MARKER
        · rw [if_pos hEof]
          rfl
        · rw [if_neg hEof]
          rfl
  · intro diff chunks h
    exact parseHunksGo_nonempty _ _ _ _ _ h


/-! ## Helper lemmas: range compaction -/

theorem mem_dedupSorted (l : List Nat) (x : Nat) :
    x ∈ dedupSorted l ↔ x ∈ l := by
  induction l with
  | nil => simp [dedupSorted]
  | cons a t ih =>
    cases t with
    | nil => simp [dedupSorted]
    | cons b u =>
      by_cases hab : a = b
      · rw [show dedupSorted (a :: b :: u) = dedupSorted (b :: u) from by
          simp [dedupSorted, hab]]
        rw [ih]
        subst hab
        simp [List.mem_cons]
      · rw [show dedupSorted (a :: b :: u) = a :: dedupSorted (b :: u) from by
          simp [dedupSorted, hab]]
        simp [List.mem_cons, ih]

theorem pairwise_lt_dedupSorted (l : List Nat)
    (h : List.Pairwise (· ≤ ·) l) :
    List.Pairwise (· < ·) (dedupSorted l) := by
  induction l with
  | nil => simp [dedupSorted]
  | cons a t ih =>
    cases t with
    | nil => simp [dedupSorted]
    | cons b u =>
      have ht : List.Pairwise (· ≤ ·) (b :: u) := h.of_cons
      have hab' : a ≤ b := List.rel_of_pairwise_cons h (List.mem_cons_self b u)
      by_cases hab : a = b
      · rw [show dedupSorted (a :: b :: u) = dedupSorted (b :: u) from by
          simp [dedupSorted, hab]]
        exact ih ht
      · rw [show dedupSorted (a :: b :: u) = a :: dedupSorted (b :: u) from by
          simp [dedupSorted, hab]]
        constructor
        · intro y hy
          rw [mem_dedupSorted] at hy
          rcases List.mem_cons.mp hy with rfl | hyu
          · omega
          · have hby : b ≤ y := List.rel_of_pairwise_cons ht hyu
            omega
        · exact ih ht

theorem compactSorted_ne_nil (x : Nat) (t : List Nat) :
    compactSorted (x :: t) ≠ [] := by
  cases hc : compactSorted t with
  | nil => simp [compactSorted, hc]
  | cons r rs =>
    simp only [compactSorted, hc]
    split <;> simp

theorem compactSorted_head_start (x : Nat) (t : List Nat) :
    ((compactSorted (x :: t)).headD ⟨0, 0⟩).start = x := by
  cases hc : compactSorted t with
  | nil => simp [compactSorted, hc]
  | cons r rs =>
    simp only [compactSorted, hc]
    split <;> simp

theorem compactSorted_spec (l : List Nat) (h : List.Pairwise (· < ·) l) :
    (∀ n, inRanges (compactSorted l) n = true ↔ n ∈ l) ∧
    (∀ r ∈ compactSorted l, r.start ≤ r.stop) ∧
    List.Chain' (fun a b => a.stop + 1 < b.start) (compactSorted l) := by
  induction l with
  | nil =>
    refine ⟨?_, ?_, ?_⟩
    · intro n
      simp [compactSorted, inRanges]
    · intro r hr
      simp [compactSorted] at hr
    · simp [compactSorted]
  | cons x t ih =>
    have ht : List.Pairwise (· < ·) t := h.of_cons
    obtain ⟨ihmem, ihwf, ihchain⟩ := ih ht
    have hxlt : ∀ y ∈ t, x < y := fun y hy => List.rel_of_pairwise_cons h hy
    cases hc : compactSorted t with
    | nil =>
      have htnil : t = [] := by
        cases t with
        | nil => rfl
        | cons y u => exact absurd hc (compactSorted_ne_nil y u)
      subst htnil
      refine ⟨?_, ?_, ?_⟩
      · intro n
        simp only [compactSorted, inRanges, List.any_cons, List.any_nil,
          Bool.or_false, decide_eq_true_eq, List.mem_singleton]
        omega
      · intro r hr
        simp only [compactSorted, List.mem_singleton] at hr
        subst hr
        exact le_refl x
      · simp [compactSorted]
    | cons r rs =>
      rw [hc] at ihmem ihwf ihchain
      have hrstart : r.start = ((compactSorted t).headD ⟨0, 0⟩).start := by
        rw [hc]; rfl
      have hhead : t ≠ [] → r.start = t.headD 0 := by
        intro htne
        cases t with
        | nil => exact absurd rfl htne
        | cons y u =>
          rw [hrstart, compactSorted_head_start y u]
          rfl
      by_cases hadj : x + 1 = r.start
      · rw [show compactSorted (x :: t) = ⟨x, r.stop⟩ :: rs from by
          simp only [compactSorted, hc]; rw [if_pos hadj]]
        have hrwf : r.start ≤ r.stop := ihwf r (List.mem_cons_self r rs)
        refine ⟨?_, ?_, ?_⟩
        · intro n
          have hm := ihmem n
          simp only [inRanges, List.any_cons, Bool.or_eq_true,
            decide_eq_true_eq, List.mem_cons] at hm ⊢
          constructor
          · rintro (⟨h1, h2⟩ | hrest)
            · by_cases hnx : n = x
              · exact Or.inl hnx
              · right
                rw [← hm]
                left
                omega
            · right
              rw [← hm]
              right
              exact hrest
          · rintro (rfl | hmem)
            · exact Or.inl ⟨le_refl n, by omega⟩
            · rw [← hm] at hmem
              rcases hmem with ⟨h1, h2⟩ | hrest
              · exact Or.inl ⟨by omega, h2⟩
              · exact Or.inr hrest
        · intro s hs
          rcases List.mem_cons.mp hs with rfl | hsr
          · simp only
            omega
          · exact ihwf s (List.mem_cons_of_mem r hsr)
        · cases rs with
          | nil => simp
          | cons r2 rs2 =>
            have := List.chain'_cons.mp ihchain
            exact List.chain'_cons.mpr ⟨this.1, this.2⟩
      · rw [show compactSorted (x :: t) = ⟨x, x⟩ :: r :: rs from by
          simp only [compactSorted, hc]; rw [if_neg hadj]]
        have htne : t ≠ [] := by
          intro h0
          rw [h0] at hc
          simp [compactSorted] at hc
        have hxr : x + 1 < r.start := by
          have h1 : r.start = t.headD 0 := hhead htne
          cases t with
          | nil => exact absurd rfl htne
          | cons y u =>
            have hxy : x < y := hxlt y (List.mem_cons_self y u)
            have hy : (y :: u).headD 0 = y := rfl
            rw [h1, hy]
            omega
        refine ⟨?_, ?_, ?_⟩
        · intro n
          have hm := ihmem n
          simp only [inRanges, List.any_cons, Bool.or_eq_true,
            decide_eq_true_eq, List.mem_cons] at hm ⊢
          constructor
          · rintro (⟨h1, h2⟩ | hrest)
            · exact Or.inl (by omega)
            · exact Or.inr (hm.mp hrest)
          · rintro (rfl | hmem)
            · exact Or.inl ⟨le_refl n, le_refl n⟩
            · exact Or.inr (hm.mpr hmem)
        · intro s hs
          rcases List.mem_cons.mp hs with rfl | hsr
          · exact le_refl x
          · exact ihwf s hsr
        · exact List.chain'_cons.mpr ⟨hxr, ihchain⟩


theorem mem_insertNat (n x : Nat) (l : List Nat) :
    x ∈ insertNat n l ↔ x = n ∨ x ∈ l := by
  induction l with
  | nil => simp [insertNat]
  | cons m t ih =>
    simp only [insertNat]
    split
    · simp [List.mem_cons]
    · simp only [List.mem_cons, ih]
      tauto

theorem pairwise_le_insertNat (n : Nat) (l : List Nat)
    (h : List.Pairwise (· ≤ ·) l) :
    List.Pairwise (· ≤ ·) (insertNat n l) := by
  induction l with
  | nil => simp [insertNat]
  | cons m t ih =>
    simp only [insertNat]
    split
    · next hnm =>
      constructor
      · intro y hy
        rcases List.mem_cons.mp hy with rfl | hyt
        · exact hnm
        · exact le_trans hnm (List.rel_of_pairwise_cons h hyt)
      · exact h
    · next hnm =>
      constructor
      · intro y hy
        rw [mem_insertNat] at hy
        rcases hy with rfl | hyt
        · omega
        · exact List.rel_of_pairwise_cons h hyt
      · exact ih h.of_cons

theorem sortNats_mem (l : List Nat) (x : Nat) : x ∈ sortNats l ↔ x ∈ l := by
  induction l with
  | nil => simp [sortNats]
  | cons m t ih =>
    simp only [sortNats, List.foldr_cons]
    rw [mem_insertNat]
    simp only [List.mem_cons]
    rw [show List.foldr insertNat [] t = sortNats t from rfl, ih]

theorem sortNats_pairwise (l : List Nat) :
    List.Pairwise (· ≤ ·) (sortNats l) := by
  induction l with
  | nil => simp [sortNats]
  | cons m t ih =>
    simp only [sortNats, List.foldr_cons]
    exact pairwise_le_insertNat m _ ih

/-- Claim C4: the `affectedRanges` carried by a `HashlineMismatchError` are
exactly the maximal contiguous inclusive ranges of the mismatched line
numbers — a number is covered by some range exactly when it is a mismatched
line, every range is well-formed, and consecutive ranges are separated by a
gap of at least one (so adjacent integers merge and any gap starts a new
range); in particular `{2,3,4}` compacts to `{2..4}` and `{2,3,5,7}` to
`{2..3},{5..5},{7..7}`. -/
theorem c4_affected_ranges_compaction :
    (∀ (mismatches : List HashMismatch) (fileLines : List String),
      (∀ n, inRanges
          ((mkHashlineMismatchError mismatches fileLines).affectedRanges) n =
          true ↔ n ∈ mismatches.map (·.line)) ∧
      (∀ r ∈ (mkHashlineMismatchError mismatches fileLines).affectedRanges,
        r.start ≤ r.stop) ∧
      List.Chain' (fun a b => a.stop + 1 < b.start)
        ((mkHashlineMismatchError mismatches fileLines).affectedRanges)) ∧
    compactLineRanges [2, 3, 4] = [⟨2, 4⟩] ∧
    compactLineRanges [2, 3, 5, 7] = [⟨2, 3⟩, ⟨5, 5⟩, ⟨7, 7⟩] := by
  refine ⟨?_, by decide, by decide⟩
  intro mismatches fileLines
  have haff : (mkHashlineMismatchError mismatches fileLines).affectedRanges =
      compactSorted (dedupSorted (sortNats (mismatches.map (·.line)))) := rfl
  have hsp : List.Pairwise (· < ·)
      (dedupSorted (sortNats (mismatches.map (·.line)))) :=
    pairwise_lt_dedupSorted _ (sortNats_pairwise _)
  obtain ⟨hmem, hwf, hchain⟩ := compactSorted_spec _ hsp
  refine ⟨?_, by rwa [haff], by rwa [haff]⟩
  intro n
  rw [haff, hmem n, mem_dedupSorted, sortNats_mem]


/-! ## Helper lemmas: the hashline mismatch aggregation -/

theorem mem_dedupTagsAux (ts : List LineTag) :
    ∀ (seen : List LineTag) (x : LineTag),
    x ∈ dedupTagsAux seen ts ↔ x ∈ ts ∧ x ∉ seen := by
  induction ts with
  | nil => intro seen x; simp [dedupTagsAux]
  | cons t rest ih =>
    intro seen x
    simp only [dedupTagsAux]
    split
    · next hts =>
      rw [ih]
      simp only [List.mem_cons]
      constructor
      · rintro ⟨hx, hn⟩
        exact ⟨Or.inr hx, hn⟩
      · rintro ⟨hor, hn⟩
        rcases hor with rfl | hx
        · exact absurd hts hn
        · exact ⟨hx, hn⟩
    · next hts =>
      simp only [List.mem_cons, ih, List.mem_cons]
      constructor
      · rintro (rfl | ⟨hx, hn⟩)
        · exact ⟨Or.inl rfl, hts⟩
        · exact ⟨Or.inr hx, fun hs => hn (Or.inr hs)⟩
      · rintro ⟨hor, hn⟩
        rcases hor with rfl | hx
        · exact Or.inl rfl
        · by_cases hxt : x = t
          · exact Or.inl hxt
          · exact Or.inr ⟨hx, fun hs => by
              rcases hs with hs | hs
              · exact hxt hs
              · exact hn hs⟩

theorem nodup_dedupTagsAux (ts : List LineTag) :
    ∀ (seen : List LineTag), (dedupTagsAux seen ts).Nodup := by
  induction ts with
  | nil => intro seen; simp [dedupTagsAux]
  | cons t rest ih =>
    intro seen
    simp only [dedupTagsAux]
    split
    · exact ih seen
    · refine List.Nodup.cons ?_ (ih (t :: seen))
      intro hmem
      rw [mem_dedupTagsAux] at hmem
      exact hmem.2 (List.mem_cons_self t seen)

/-- Claim C1: for every file content and batch of hashline edits whose
referenced line numbers are all in range, if N distinct referenced tags fail
hash validation against the current content then `applyHashlineEdits` fails
with the aggregated `HashlineMismatchError` whose mismatch list has exactly
one entry per failing tag — all of them, never fewer, with no duplicates —
and the failure carries zero mutation: the result is the error value and no
modified content is produced.  (`applyHashlineEdits` and `computeLineHash`
are modelled from the spec; their source is not included.) -/
theorem c1_hashline_mismatch_aggregation (content : String)
    (edits : List HashlineEdit)
    (hin : ∀ t ∈ edits.flatMap editTags,
      tagInRange (splitLines content) t = true)
    (hfail : failingTags (splitLines content) (edits.flatMap editTags) ≠ []) :
    applyHashlineEdits content edits =
      .error (.mismatchFailure (mkHashlineMismatchError
        ((failingTags (splitLines content) (edits.flatMap editTags)).map
          fun t => ⟨t.line, t.hash⟩) (splitLines content))) ∧
    List.Nodup ((failingTags (splitLines content)
      (edits.flatMap editTags)).map fun t =>
        (⟨t.line, t.hash⟩ : HashMismatch)) ∧
    (∀ t : LineTag,
      t ∈ failingTags (splitLines content) (edits.flatMap editTags) ↔
        t ∈ edits.flatMap editTags ∧
          tagMatches (splitLines content) t = false) := by
  refine ⟨?_, ?_, ?_⟩
  · have hfind : (edits.flatMap editTags).find?
        (fun t => ¬ tagInRange (splitLines content) t) = none := by
      rw [List.find?_eq_none]
      intro t ht
      simp [hin t ht]
    simp only [applyHashlineEdits, hfind]
    rw [if_neg hfail]
  · apply List.Nodup.map
    · intro a b hab
      simp only [HashMismatch.mk.injEq] at hab
      cases a
      cases b
      simp only [LineTag.mk.injEq]
      exact hab
    · exact nodup_dedupTagsAux _ []
  · intro t
    unfold failingTags dedupTags
    rw [mem_dedupTagsAux]
    simp only [List.mem_filter, List.not_mem_nil, not_false_iff, and_true]
    constructor
    · rintro ⟨hmem, hmatch⟩
      refine ⟨hmem, ?_⟩
      simpa using hmatch
    · rintro ⟨hmem, hmatch⟩
      refine ⟨hmem, ?_⟩
      simpa using hmatch


/-! ## Witnesses: each claim theorem applied at a concrete input -/

/-- Witness for C1: two stale tags on lines 2 and 4 of a five-line file. -/
theorem c1_witness :
    applyHashlineEdits "aaa\nbbb\nccc\nddd\neee"
      [.replaceTag ⟨2, 1⟩ ["BBB"], .replaceTag ⟨4, 2⟩ ["DDD"]] =
      .error (.mismatchFailure (mkHashlineMismatchError
        ((failingTags (splitLines "aaa\nbbb\nccc\nddd\neee")
          (([.replaceTag ⟨2, 1⟩ ["BBB"], .replaceTag ⟨4, 2⟩ ["DDD"]] :
            List HashlineEdit).flatMap editTags)).map
          fun t => ⟨t.line, t.hash⟩) (splitLines "aaa\nbbb\nccc\nddd\neee"))) :=
  (c1_hashline_mismatch_aggregation "aaa\nbbb\nccc\nddd\neee"
    [.replaceTag ⟨2, 1⟩ ["BBB"], .replaceTag ⟨4, 2⟩ ["DDD"]]
    (by decide) (by decide)).1

/-- Witness for C2: a one-line pattern in a two-line haystack. -/
theorem c2_witness :
    seekSequence ["alpha", "beta"] ["beta"] 0 false =
      specSeekSequence ["alpha", "beta"] ["beta"] 0 :=
  c2_seek_cascade ["alpha", "beta"] ["beta"] 0 (by decide) (by decide)

/-- Witness for C3: old text `"aa"` occurring twice fails with count 2. -/
theorem c3_witness :
    applyDiffToContent "aa\nq\naa" "f"
      [⟨none, false, ["aa"], ["bb"], false⟩] =
      .error (.multipleOccurrences 2 "f") :=
  (c3_simple_replace_uniqueness "aa\nq\naa" "f"
    ⟨none, false, ["aa"], ["bb"], false⟩ rfl rfl (by decide)).2 2
    (by decide) (by decide)

/-- Witness for C5 (amended): an exact match at the end position is returned
with confidence 1. -/
theorem c5_witness :
    seekSequence ["p", "q"] ["q"] 0 true = ⟨some 1, 1⟩ :=
  (c5_prefer_end_fallback ["p", "q"] ["q"] 0 (by decide) (by decide)).1
    (by decide)

/-- Witness for C6 (amended): a no-old-lines chunk inserts at end of file. -/
theorem c6_witness :
    computeReplacements ["x", "y"] "f" [⟨none, false, [], ["N"], false⟩] =
      .ok [⟨2, 0, ["N"]⟩] :=
  (c6_insertion_at_eof ["x", "y"] "f" ⟨none, false, [], ["N"], false⟩
    rfl).1 rfl

/-- Witness for C7: a chunk whose first old line duplicates its scope line
resolves at the scope line itself. -/
theorem c7_witness :
    computeReplacements ["ctx", "b"] "f"
      [⟨some "ctx", true, ["ctx", "b"], ["C", "B"], false⟩] =
      .ok [⟨0, 2, ["C", "B"]⟩] :=
  ((c7_scope_context_cursor ["ctx", "b"] "f"
    ⟨some "ctx", true, ["ctx", "b"], ["C", "B"], false⟩ "ctx" rfl
    (by decide) rfl).2 0 (by decide)).2 (by decide) (by decide) (by decide)

/-- Witness for C8: a bare `@@` header at end of input is a `ParseError`
with a line number. -/
theorem c8_witness :
    ∃ e, parseOneChunk ["@@"] 3 true = .error e ∧
      e.lineNumber.isSome = true :=
  c8_empty_hunk_parse_error.1 "@@" [] 3 true (Or.inl rfl) (Or.inl rfl)

/-- Witness for C9: the confidence bounds at a concrete exact match. -/
theorem c9_witness :
    0 ≤ (seekSequence ["a"] ["a"] 0 false).confidence ∧
      (seekSequence ["a"] ["a"] 0 false).confidence ≤ 1 :=
  (c9_confidence_bounds ["a"] ["a"] 0 false).1

/-- Witness for C10 (amended): a successful hunk update ends with a
newline. -/
theorem c10_witness :
    ("a\nB\n" : String) = "" ∨ endsWithNewline "a\nB\n" = true :=
  (c10_trailing_newline "a\nb" "f" [⟨some "a", true, ["b"], ["B"], false⟩]
    "a\nB\n" (by decide)).1

end OhMyPi
